import Mathlib

/-!
Verification of the SmartRead content-extraction and in-document anchoring
subsystem.  The repository ships two variants of the same app: a direct-DOM
variant (`App.tsx`) and an iframe-isolated variant.  This file gives a shallow
embedding of the pipeline — sanitization, URL rewriting, text extraction, the
anchor locator, selection capture, and the host loading-state handling — and
proves or refutes the specification's claims about it.

Strings are manipulated through their underlying character lists so that all
definitions compute by kernel reduction.
-/

/-! ## Character-list utilities -/

/-- Whitespace test used by the embedding of JavaScript `trim` and of the
`\s` regex class. -/
def wsChar (c : Char) : Bool := c.isWhitespace

/-- Characters of a string with leading and trailing whitespace removed. -/
def trimChars (l : List Char) : List Char :=
  ((l.dropWhile wsChar).reverse.dropWhile wsChar).reverse

/-- Embedding of JavaScript `String.prototype.trim`. -/
def jsTrim (s : String) : String := ⟨trimChars s.data⟩

/-- Embedding of JavaScript `String.prototype.includes`: substring test. -/
def jsIncludes (s sub : String) : Bool := decide (sub.data <:+: s.data)

/-- Split a character list at the first occurrence of a character:
`some (before, after)` when the character occurs, `none` otherwise. -/
def splitFirstChar (sep : Char) : List Char → Option (List Char × List Char)
  | [] => none
  | c :: rest =>
      if c = sep then some ([], rest)
      else (splitFirstChar sep rest).map (fun p => (c :: p.1, p.2))

/-- Split at the first occurrence of a character, keeping the whole list and
reporting absence when the character does not occur. -/
def splitOpt (sep : Char) (l : List Char) : List Char × Option (List Char) :=
  match splitFirstChar sep l with
  | some (a, b) => (a, some b)
  | none => (l, none)

/-- Split a character list on every occurrence of a character.  Always returns
a nonempty list of separator-free chunks. -/
def splitOnChar (sep : Char) : List Char → List (List Char)
  | [] => [[]]
  | c :: rest =>
      match splitOnChar sep rest with
      | [] => [[]]
      | h :: t => if c = sep then [] :: h :: t else (c :: h) :: t

/-- Join chunks with a separator character; inverse of `splitOnChar`. -/
def joinSep (sep : Char) : List (List Char) → List Char
  | [] => []
  | [x] => x
  | x :: y :: t => x ++ sep :: joinSep sep (y :: t)

/-- Split a character list at the first occurrence of a pattern:
`some (before, after)` with the pattern removed. -/
def splitFirstL (pat : List Char) : List Char → Option (List Char × List Char)
  | [] => none
  | c :: rest =>
      if pat.isPrefixOf (c :: rest) then some ([], (c :: rest).drop pat.length)
      else (splitFirstL pat rest).map (fun p => (c :: p.1, p.2))

/-- Fuel-driven worker for `jsSplit` (fuel bounds the number of produced
chunks; it is instantiated with the length of the list). -/
def splitOnAux (pat : List Char) : Nat → List Char → List (List Char)
  | _, [] => [[]]
  | 0, l => [l]
  | fuel + 1, c :: rest =>
      if pat.isPrefixOf (c :: rest) then
        [] :: splitOnAux pat fuel ((c :: rest).drop pat.length)
      else
        match splitOnAux pat (fuel + 1) rest with
        | [] => [[]]
        | h :: t => (c :: h) :: t

/-- Embedding of JavaScript `String.prototype.split` with a string separator
(including the `split("")` behaviour of splitting into single characters). -/
def jsSplit (s pat : String) : List String :=
  if pat.data = [] then s.data.map (fun c => (⟨[c]⟩ : String))
  else (splitOnAux pat.data s.data.length s.data).map (fun l => (⟨l⟩ : String))

/-- Join a list of strings with a separator string (embedding of
JavaScript `Array.prototype.join`). -/
def joinWith (sep : String) : List String → String
  | [] => ""
  | [x] => x
  | x :: y :: t => x ++ sep ++ joinWith sep (y :: t)

/-- Collapse every run of whitespace characters to a single space
(embedding of `.replace(/\s+/g, ' ')`). -/
def collapseWS : List Char → List Char
  | [] => []
  | [c] => if wsChar c then [' '] else [c]
  | c :: d :: rest =>
      if wsChar c then
        if wsChar d then collapseWS (d :: rest)
        else ' ' :: collapseWS (d :: rest)
      else c :: collapseWS (d :: rest)

/-- Embedding of `.replace(/\s+/g, ' ').trim()` from the iframe variant's
text extraction. -/
def normalizeWS (s : String) : String := jsTrim ⟨collapseWS s.data⟩

/-! ### Lemmas about the utilities -/

theorem splitFirstChar_eq (sep : Char) (l a b : List Char)
    (h : splitFirstChar sep l = some (a, b)) : l = a ++ sep :: b ∧ sep ∉ a := by
  induction l generalizing a b with
  | nil => simp [splitFirstChar] at h
  | cons c rest ih =>
      simp only [splitFirstChar] at h
      by_cases hc : c = sep
      · rw [if_pos hc] at h
        injection h with h'
        injection h' with ha hb
        subst ha; subst hb; subst hc
        simp
      · rw [if_neg hc, Option.map_eq_some'] at h
        obtain ⟨⟨p, q⟩, hpq, hmk⟩ := h
        injection hmk with hap hbq
        obtain ⟨h1, h2⟩ := ih p q hpq
        subst hap; subst hbq
        refine ⟨by simp [h1], ?_⟩
        simp only [List.mem_cons, not_or]
        exact ⟨fun he => hc he.symm, h2⟩

theorem splitFirstChar_of_not_mem (sep : Char) (l : List Char) (h : sep ∉ l) :
    splitFirstChar sep l = none := by
  induction l with
  | nil => rfl
  | cons c rest ih =>
      simp only [List.mem_cons, not_or] at h
      simp [splitFirstChar, Ne.symm h.1, ih h.2]

theorem splitFirstChar_append (sep : Char) (a b : List Char) (h : sep ∉ a) :
    splitFirstChar sep (a ++ sep :: b) = some (a, b) := by
  induction a with
  | nil => simp [splitFirstChar]
  | cons c rest ih =>
      simp only [List.mem_cons, not_or] at h
      simp [splitFirstChar, Ne.symm h.1, ih h.2]

theorem splitFirstChar_isSome_of_mem (sep : Char) (l : List Char) (h : sep ∈ l) :
    (splitFirstChar sep l).isSome := by
  induction l with
  | nil => simp at h
  | cons c rest ih =>
      simp only [splitFirstChar]
      by_cases hc : c = sep
      · simp [hc]
      · rcases List.mem_cons.mp h with h1 | h1
        · exact absurd h1.symm hc
        · rw [if_neg hc]
          have := ih h1
          cases hsp : splitFirstChar sep rest with
          | some p => simp
          | none => rw [hsp] at this; simp at this

theorem splitOpt_mem (sep : Char) (l : List Char) :
    ∀ x ∈ (splitOpt sep l).1, x ∈ l := by
  unfold splitOpt
  cases h : splitFirstChar sep l with
  | some p =>
      intro x hx
      obtain ⟨h1, _⟩ := splitFirstChar_eq sep l p.1 p.2 (by rw [h])
      rw [h1]
      simp at hx
      simp [hx]
  | none => exact fun x hx => hx

theorem splitOpt_not_mem (sep : Char) (l : List Char) : sep ∉ (splitOpt sep l).1 := by
  unfold splitOpt
  cases h : splitFirstChar sep l with
  | some p =>
      exact (splitFirstChar_eq sep l p.1 p.2 (by rw [h])).2
  | none =>
      intro hmem
      have := splitFirstChar_isSome_of_mem sep l hmem
      rw [h] at this
      simp at this

theorem splitOnChar_ne_nil (sep : Char) (l : List Char) : splitOnChar sep l ≠ [] := by
  induction l with
  | nil => simp [splitOnChar]
  | cons c rest ih =>
      obtain ⟨hd, tl, hht⟩ := List.exists_cons_of_ne_nil ih
      simp only [splitOnChar, hht]
      by_cases hc : c = sep <;> simp [hc]

theorem splitOnChar_not_mem (sep : Char) (l : List Char) :
    ∀ s ∈ splitOnChar sep l, sep ∉ s := by
  induction l with
  | nil => simp [splitOnChar]
  | cons c rest ih =>
      obtain ⟨hd, tl, hht⟩ := List.exists_cons_of_ne_nil (splitOnChar_ne_nil sep rest)
      have ihhd : sep ∉ hd := ih hd (hht ▸ List.mem_cons_self hd tl)
      simp only [splitOnChar, hht]
      by_cases hc : c = sep
      · rw [if_pos hc]
        intro s hs
        rcases List.mem_cons.mp hs with hs | hs
        · subst hs; simp
        · exact ih s (hht ▸ hs)
      · rw [if_neg hc]
        intro s hs
        rcases List.mem_cons.mp hs with hs | hs
        · subst hs
          simp only [List.mem_cons, not_or]
          exact ⟨fun he => hc he.symm, ihhd⟩
        · exact ih s (hht ▸ List.mem_cons_of_mem hd hs)

theorem splitOnChar_mem_mem (sep : Char) (l : List Char) :
    ∀ s ∈ splitOnChar sep l, ∀ x ∈ s, x ∈ l := by
  induction l with
  | nil => simp [splitOnChar]
  | cons c rest ih =>
      obtain ⟨hd, tl, hht⟩ := List.exists_cons_of_ne_nil (splitOnChar_ne_nil sep rest)
      simp only [splitOnChar, hht]
      by_cases hc : c = sep
      · rw [if_pos hc]
        intro s hs x hx
        rcases List.mem_cons.mp hs with hs | hs
        · subst hs; simp at hx
        · exact List.mem_cons_of_mem _ (ih s (hht ▸ hs) x hx)
      · rw [if_neg hc]
        intro s hs x hx
        rcases List.mem_cons.mp hs with hs | hs
        · subst hs
          rcases List.mem_cons.mp hx with hx | hx
          · simp [hx]
          · exact List.mem_cons_of_mem _
              (ih hd (hht ▸ List.mem_cons_self hd tl) x hx)
        · exact List.mem_cons_of_mem _ (ih s (hht ▸ List.mem_cons_of_mem hd hs) x hx)

theorem splitOnChar_single (sep : Char) (x : List Char) (h : sep ∉ x) :
    splitOnChar sep x = [x] := by
  induction x with
  | nil => rfl
  | cons c rest ih =>
      simp only [List.mem_cons, not_or] at h
      simp only [splitOnChar, ih h.2]
      simp [Ne.symm h.1]

theorem splitOnChar_cons (sep c : Char) (l : List Char) :
    splitOnChar sep (c :: l) =
      match splitOnChar sep l with
      | [] => [[]]
      | h :: t => if c = sep then [] :: h :: t else (c :: h) :: t := rfl

theorem splitOnChar_append (sep : Char) (x r : List Char) (h : sep ∉ x) :
    splitOnChar sep (x ++ sep :: r) = x :: splitOnChar sep r := by
  induction x with
  | nil =>
      obtain ⟨hd, tl, hht⟩ := List.exists_cons_of_ne_nil (splitOnChar_ne_nil sep r)
      simp [splitOnChar, hht]
  | cons c rest ih =>
      simp only [List.mem_cons, not_or] at h
      rw [List.cons_append, splitOnChar_cons, ih h.2]
      simp [Ne.symm h.1]

theorem splitOnChar_joinSep (sep : Char) (segs : List (List Char))
    (hne : segs ≠ []) (hmem : ∀ s ∈ segs, sep ∉ s) :
    splitOnChar sep (joinSep sep segs) = segs := by
  induction segs with
  | nil => exact absurd rfl hne
  | cons x rest ih =>
      match rest with
      | [] => exact splitOnChar_single sep x (hmem x (List.mem_cons_self x []))
      | y :: t =>
          have hx : sep ∉ x := hmem x (List.mem_cons_self x _)
          simp only [joinSep, splitOnChar_append sep x _ hx]
          congr 1
          exact ih (by simp) (fun s hs => hmem s (List.mem_cons_of_mem x hs))

theorem joinSep_cons_cons (sep : Char) (x y : List Char) (t : List (List Char)) :
    joinSep sep (x :: y :: t) = x ++ sep :: joinSep sep (y :: t) := rfl

theorem joinSep_splitOnChar (sep : Char) (l : List Char) :
    joinSep sep (splitOnChar sep l) = l := by
  induction l with
  | nil => rfl
  | cons c rest ih =>
      obtain ⟨hd, tl, hht⟩ := List.exists_cons_of_ne_nil (splitOnChar_ne_nil sep rest)
      rw [hht] at ih
      simp only [splitOnChar, hht]
      by_cases hc : c = sep
      · rw [if_pos hc, joinSep_cons_cons, ih, hc]
        simp
      · rw [if_neg hc]
        cases tl with
        | nil =>
            simp only [joinSep] at ih ⊢
            simp [ih]
        | cons z t' =>
            rw [joinSep_cons_cons] at ih ⊢
            simp [ih]

theorem splitFirstL_eq (pat l a b : List Char)
    (h : splitFirstL pat l = some (a, b)) : l = a ++ pat ++ b := by
  induction l generalizing a b with
  | nil => simp [splitFirstL] at h
  | cons c rest ih =>
      simp only [splitFirstL] at h
      by_cases hp : pat.isPrefixOf (c :: rest)
      · rw [if_pos hp] at h
        injection h with h'
        injection h' with ha hb
        subst ha; subst hb
        have hpre : pat <+: (c :: rest) := (List.isPrefixOf_iff_prefix).mp hp
        obtain ⟨tl, htl⟩ := hpre
        rw [← htl]
        simp [List.drop_left]
      · rw [if_neg hp, Option.map_eq_some'] at h
        obtain ⟨⟨p, q⟩, hpq, hmk⟩ := h
        injection hmk with hap hbq
        subst hap; subst hbq
        simp [ih p q hpq]

theorem splitFirstL_isSome (pat l : List Char) (h : pat <:+: l) (hne : pat ≠ []) :
    (splitFirstL pat l).isSome := by
  obtain ⟨s, t, hst⟩ := h
  induction s generalizing l with
  | nil =>
      simp only [List.nil_append] at hst
      subst hst
      match pat, hne with
      | p :: ps, _ =>
          simp only [splitFirstL]
          rw [if_pos]
          · rfl
          · exact (List.isPrefixOf_iff_prefix).mpr ⟨t, by simp⟩
  | cons c s' ih =>
      subst hst
      simp only [List.cons_append, splitFirstL]
      split
      · rfl
      · have := ih (s' ++ pat ++ t) rfl
        cases hsp : splitFirstL pat (s' ++ pat ++ t) with
        | some p => simp
        | none => rw [hsp] at this; simp at this

/-! ## URL resolution

The iframe variant's `rewriteUrls` helper calls the browser's `new URL(url,
base)` constructor and falls back to the original string when it throws.  The
constructor is an external collaborator; we embed its behaviour as an
executable resolver following standard URL-resolution semantics (RFC 3986
section 5, with the WHATWG normalizations that matter here: the base URL's
path is dot-normalized at parse time, a hierarchical base — scheme plus
authority — is required, and a `/.` prefix is inserted when serializing an
authority-less path that starts with two empty segments).  Percent-encoding,
host case normalization and default-port elision are outside the model's
scope; the modeled subset is internally closed, which is what the rewriting
claims exercise. -/

/-- Valid characters of a URL scheme after the first one. -/
def validSchemeChar (c : Char) : Bool :=
  c.isAlphanum || c = '+' || c = '-' || c = '.'

/-- A valid URL scheme: nonempty, starts with a letter, rest alphanumeric
or `+`/`-`/`.`. -/
def validScheme (l : List Char) : Bool :=
  match l with
  | [] => false
  | c :: rest => c.isAlpha && rest.all validSchemeChar

/-- A parsed URL reference: optional scheme and authority, the path as a
nonempty list of `/`-separated segments, optional query and fragment. -/
structure URIRef where
  scheme : Option (List Char)
  auth : Option (List Char)
  segs : List (List Char)
  query : Option (List Char)
  frag : Option (List Char)
deriving DecidableEq

/-- Extract the scheme from the pre-query part of a reference: the text
before the first `:` when it forms a valid scheme. -/
def parseScheme (l : List Char) : Option (List Char) × List Char :=
  match splitFirstChar ':' l with
  | some (a, b) => if validScheme a then (some a, b) else (none, l)
  | none => (none, l)

/-- Extract the authority (after a leading `//`) and the remaining path. -/
def parseAuthPath (l : List Char) : Option (List Char) × List Char :=
  match l with
  | c :: d :: rest =>
      if c = '/' ∧ d = '/' then
        match splitFirstChar '/' rest with
        | some (a, p) => (some a, '/' :: p)
        | none => (some rest, [])
      else (none, l)
  | _ => (none, l)

/-- Parse a URL reference (relative or absolute). -/
def parseRef (l : List Char) : URIRef :=
  let p1 := splitOpt '#' l
  let p2 := splitOpt '?' p1.1
  let p3 := parseScheme p2.1
  let p4 := parseAuthPath p3.2
  { scheme := p3.1, auth := p4.1, segs := splitOnChar '/' p4.2,
    query := p2.2, frag := p1.2 }

/-- Single-dot path segment (`.`). -/
def isDotSeg (s : List Char) : Bool := s = ['.']

/-- Double-dot path segment (`..`). -/
def isDotDotSeg (s : List Char) : Bool := s = ['.', '.']

/-- Pop the last path segment for a `..`, never popping past the root
(a path that is just the leading empty segment). -/
def popSeg : List (List Char) → List (List Char)
  | [[]] => [[]]
  | xs => xs.dropLast

/-- One step of remove-dot-segments. -/
def rdsStep (out : List (List Char)) (s : List Char) : List (List Char) :=
  if isDotSeg s then out
  else if isDotDotSeg s then popSeg out
  else out ++ [s]

/-- Whether the final input segment is `.` or `..` (RFC 3986 complete-path
dot handling leaves a trailing slash in that case). -/
def lastIsDot (segs : List (List Char)) : Bool :=
  match segs.getLast? with
  | some s => isDotSeg s || isDotDotSeg s
  | none => false

/-- Remove-dot-segments (RFC 3986 section 5.2.4) on a segmented path; a
trailing `.` or `..` leaves a trailing empty segment (trailing slash). -/
def rds (segs : List (List Char)) : List (List Char) :=
  if lastIsDot segs then segs.foldl rdsStep [] ++ [[]]
  else segs.foldl rdsStep []

/-- Merge a relative path with the base path (RFC 3986 section 5.2.3). -/
def mergePaths (B : URIRef) (rsegs : List (List Char)) : List (List Char) :=
  if B.auth.isSome ∧ B.segs = [[]] then [] :: rsegs
  else B.segs.dropLast ++ rsegs

/-- Resolve a parsed reference against a parsed base
(RFC 3986 section 5.2.2, strict). -/
def resolveRef (B R : URIRef) : URIRef :=
  match R.scheme with
  | some s =>
      { scheme := some s, auth := R.auth, segs := rds R.segs,
        query := R.query, frag := R.frag }
  | none =>
      match R.auth with
      | some a =>
          { scheme := B.scheme, auth := some a, segs := rds R.segs,
            query := R.query, frag := R.frag }
      | none =>
          if R.segs = [[]] then
            { scheme := B.scheme, auth := B.auth, segs := B.segs,
              query := match R.query with | some q => some q | none => B.query,
              frag := R.frag }
          else if R.segs.head? = some [] then
            { scheme := B.scheme, auth := B.auth, segs := rds R.segs,
              query := R.query, frag := R.frag }
          else
            { scheme := B.scheme, auth := B.auth,
              segs := rds (mergePaths B R.segs),
              query := R.query, frag := R.frag }

/-- Serialize the path, inserting the `/.` guard for an authority-less path
that would otherwise serialize with a leading `//`. -/
def serializePath (u : URIRef) : List Char :=
  match u.auth, u.segs with
  | none, [] :: [] :: _ => '/' :: '.' :: joinSep '/' u.segs
  | _, _ => joinSep '/' u.segs

/-- Serialize a parsed URL (RFC 3986 section 5.3). -/
def serializeURI (u : URIRef) : List Char :=
  (match u.scheme with | some s => s ++ [':'] | none => []) ++
  (match u.auth with | some a => '/' :: '/' :: a | none => []) ++
  serializePath u ++
  (match u.query with | some q => '?' :: q | none => []) ++
  (match u.frag with | some f => '#' :: f | none => [])

/-- Parse a base URL: it must have a scheme and an authority (the browser
constructor rejects other bases for relative resolution); its path is
dot-normalized at parse time as the WHATWG parser does. -/
def parseBase (l : List Char) : Option URIRef :=
  match (parseRef l).scheme, (parseRef l).auth with
  | some _, some _ => some { parseRef l with segs := rds (parseRef l).segs }
  | _, _ => none

/-- Embedding of `new URL(url, base).href`: `none` models the constructor
throwing (invalid base). -/
def resolveChars (url base : List Char) : Option (List Char) :=
  match parseBase base with
  | none => none
  | some B => some (serializeURI (resolveRef B (parseRef url)))

/-- The `toAbsolute` helper of `rewriteUrls`: resolve against the base URL,
returning the input unchanged when resolution fails. -/
def toAbsolute (base url : String) : String :=
  match resolveChars url.data base.data with
  | some a => ⟨a⟩
  | none => url










/-! ### Remove-dot-segments lemmas -/

/-- A segmented path free of `.` and `..` segments. -/
def noDotSegs (segs : List (List Char)) : Prop :=
  ∀ s ∈ segs, isDotSeg s = false ∧ isDotDotSeg s = false

theorem noDotSegs_nil : noDotSegs [] := by intro s hs; simp at hs

theorem popSeg_subset (out : List (List Char)) : ∀ s ∈ popSeg out, s ∈ out := by
  unfold popSeg
  split
  · exact fun s hs => hs
  · exact fun s hs => (List.dropLast_sublist _).subset hs

theorem rdsStep_mem (out : List (List Char)) (x : List Char) :
    ∀ s ∈ rdsStep out x, s ∈ out ∨ s = x := by
  unfold rdsStep
  split
  · exact fun s hs => Or.inl hs
  · split
    · exact fun s hs => Or.inl (popSeg_subset out s hs)
    · intro s hs
      rcases List.mem_append.mp hs with hs | hs
      · exact Or.inl hs
      · simp at hs
        exact Or.inr hs

theorem foldl_rdsStep_mem (segs : List (List Char)) (out : List (List Char)) :
    ∀ s ∈ segs.foldl rdsStep out, s ∈ out ∨ s ∈ segs := by
  induction segs generalizing out with
  | nil => exact fun s hs => Or.inl hs
  | cons a rest ih =>
      intro s hs
      rcases ih (rdsStep out a) s hs with h | h
      · rcases rdsStep_mem out a s h with h | h
        · exact Or.inl h
        · exact Or.inr (h ▸ List.mem_cons_self a rest)
      · exact Or.inr (List.mem_cons_of_mem a h)

theorem rdsStep_noDots (out : List (List Char)) (x : List Char) (h : noDotSegs out) :
    noDotSegs (rdsStep out x) := by
  unfold rdsStep
  split
  · exact h
  · split
    · exact fun s hs => h s (popSeg_subset out s hs)
    · rename_i h1 h2
      intro s hs
      rcases List.mem_append.mp hs with hs | hs
      · exact h s hs
      · simp at hs
        subst hs
        exact ⟨Bool.not_eq_true _ ▸ h1, Bool.not_eq_true _ ▸ h2⟩

theorem foldl_rdsStep_noDots (segs out : List (List Char)) (h : noDotSegs out) :
    noDotSegs (segs.foldl rdsStep out) := by
  induction segs generalizing out with
  | nil => exact h
  | cons a rest ih => exact ih (rdsStep out a) (rdsStep_noDots out a h)

theorem lastIsDot_of_getLast? (segs : List (List Char)) (s : List Char)
    (hl : segs.getLast? = some s) :
    lastIsDot segs = (isDotSeg s || isDotDotSeg s) := by
  unfold lastIsDot
  rw [hl]

theorem lastIsDot_eq_false_of_none (segs : List (List Char))
    (hl : segs.getLast? = none) : lastIsDot segs = false := by
  unfold lastIsDot
  rw [hl]

theorem rds_noDots (segs : List (List Char)) : noDotSegs (rds segs) := by
  unfold rds
  have base := foldl_rdsStep_noDots segs [] noDotSegs_nil
  split
  · intro x hx
    rcases List.mem_append.mp hx with hx | hx
    · exact base x hx
    · simp at hx
      subst hx
      exact ⟨by simp [isDotSeg], by simp [isDotDotSeg]⟩
  · exact base

theorem foldl_rdsStep_id (segs out : List (List Char)) (h : noDotSegs segs) :
    segs.foldl rdsStep out = out ++ segs := by
  induction segs generalizing out with
  | nil => simp
  | cons a rest ih =>
      have ha := h a (List.mem_cons_self a rest)
      simp only [List.foldl_cons]
      rw [show rdsStep out a = out ++ [a] by
        unfold rdsStep; rw [if_neg (by simp [ha.1]), if_neg (by simp [ha.2])]]
      rw [ih (out ++ [a]) (fun s hs => h s (List.mem_cons_of_mem a hs))]
      simp

theorem getLast?_mem_self {α : Type} (l : List α) (a : α) (h : l.getLast? = some a) :
    a ∈ l := by
  induction l with
  | nil => simp at h
  | cons x t ih =>
      cases t with
      | nil =>
          simp [List.getLast?] at h
          simp [h]
      | cons y t' =>
          rw [List.getLast?_cons_cons] at h
          exact List.mem_cons_of_mem x (ih h)

theorem rds_of_noDots (segs : List (List Char)) (h : noDotSegs segs) :
    rds segs = segs := by
  unfold rds
  cases hl : segs.getLast? with
  | none =>
      rw [lastIsDot_eq_false_of_none segs hl]
      rw [foldl_rdsStep_id segs [] h]
      simp
  | some s =>
      have hs := h s (getLast?_mem_self segs s hl)
      rw [lastIsDot_of_getLast? segs s hl]
      rw [if_neg (by simp [hs.1, hs.2]), foldl_rdsStep_id segs [] h]
      simp

theorem rds_ne_nil (segs : List (List Char)) (h : segs ≠ []) : rds segs ≠ [] := by
  rcases List.eq_nil_or_concat segs with h1 | ⟨L, b, h1⟩
  · exact absurd h1 h
  · subst h1
    unfold rds
    simp only [List.concat_eq_append]
    by_cases hb : (isDotSeg b || isDotDotSeg b) = true
    · rw [show lastIsDot (L ++ [b]) = true by
        rw [lastIsDot_of_getLast? (L ++ [b]) b (by simp)]; exact hb]
      simp
    · rw [show lastIsDot (L ++ [b]) = false by
        rw [lastIsDot_of_getLast? (L ++ [b]) b (by simp)]; simpa using hb]
      simp only [Bool.false_eq_true, if_false]
      simp only [Bool.or_eq_true, not_or, Bool.not_eq_true] at hb
      rw [List.foldl_append]
      simp only [List.foldl_cons, List.foldl_nil]
      unfold rdsStep
      rw [if_neg (by simp [hb.1]), if_neg (by simp [hb.2])]
      simp

theorem rdsStep_head_root (out : List (List Char)) (x : List Char)
    (h : out.head? = some []) : (rdsStep out x).head? = some [] := by
  match out, h with
  | [] :: t, _ =>
      unfold rdsStep
      split
      · simp
      · split
        · cases t with
          | nil => simp [popSeg]
          | cons y t' =>
              show (popSeg ([] :: y :: t')).head? = some []
              rw [show popSeg ([] :: y :: t') = ([] :: y :: t').dropLast from rfl]
              rw [List.dropLast_cons₂]
              simp
        · cases t <;> simp

theorem foldl_rdsStep_head (rest : List (List Char)) (out : List (List Char))
    (h : out.head? = some []) : (rest.foldl rdsStep out).head? = some [] := by
  induction rest generalizing out with
  | nil => exact h
  | cons a r ih => exact ih (rdsStep out a) (rdsStep_head_root out a h)

theorem rds_head_root (segs : List (List Char)) (h : segs.head? = some []) :
    (rds segs).head? = some [] := by
  match segs, h with
  | [] :: rest, _ =>
      unfold rds
      have hfold : (([] :: rest).foldl rdsStep []).head? = some [] := by
        simp only [List.foldl_cons]
        exact foldl_rdsStep_head rest (rdsStep [] []) (by simp [rdsStep, isDotSeg, isDotDotSeg])
      split
      · obtain ⟨hd, tl, hht⟩ := List.exists_cons_of_ne_nil
          (l := ([] :: rest).foldl rdsStep [])
          (by intro hnil; rw [hnil] at hfold; simp at hfold)
        rw [hht]
        rw [hht] at hfold
        simpa using hfold
      · exact hfold

/-! ### Well-formed references -/

/-- A path segment free of the delimiters that would break re-parsing. -/
def okSeg (s : List Char) : Prop := '/' ∉ s ∧ '?' ∉ s ∧ '#' ∉ s

/-- Well-formedness of a parsed reference: every component is free of the
delimiters that introduced it, the path is a nonempty segment list, and a
present authority forces the path to be empty or absolute. -/
def WFref (u : URIRef) : Prop :=
  (∀ s, u.scheme = some s → validScheme s = true) ∧
  (∀ a, u.auth = some a → '/' ∉ a ∧ '?' ∉ a ∧ '#' ∉ a) ∧
  (∀ s ∈ u.segs, okSeg s) ∧
  (∀ q, u.query = some q → '#' ∉ q) ∧
  u.segs ≠ [] ∧
  (u.auth.isSome = true → u.segs.head? = some [])

/-- Additional invariants enjoyed by resolver outputs: a dot-free path and a
present scheme. -/
def WFabs (u : URIRef) : Prop :=
  WFref u ∧ noDotSegs u.segs ∧ u.scheme.isSome = true

theorem parseScheme_cases (l : List Char) :
    (parseScheme l = (none, l)) ∨
    (∃ s rest, parseScheme l = (some s, rest) ∧ l = s ++ ':' :: rest ∧
      validScheme s = true ∧ ':' ∉ s) := by
  unfold parseScheme
  split
  · rename_i a b h
    obtain ⟨h1, h2⟩ := splitFirstChar_eq ':' l a b h
    by_cases hv : validScheme a = true
    · right
      exact ⟨a, b, by rw [if_pos hv], h1, hv, h2⟩
    · left
      rw [if_neg hv]
  · left
    rfl

theorem parseAuthPath_cases (l : List Char) :
    (parseAuthPath l = (none, l)) ∨
    (∃ a p, parseAuthPath l = (some a, p) ∧ l = '/' :: '/' :: a ++ p ∧
      '/' ∉ a ∧ (p = [] ∨ ∃ r, p = '/' :: r)) := by
  unfold parseAuthPath
  split
  · rename_i c d rest
    by_cases hcd : c = '/' ∧ d = '/'
    · rw [if_pos hcd]
      obtain ⟨hc, hd⟩ := hcd
      subst hc; subst hd
      split
      · rename_i a p hsp
        obtain ⟨h1, h2⟩ := splitFirstChar_eq '/' rest a p hsp
        exact Or.inr ⟨a, '/' :: p, rfl, by simp [h1], h2, Or.inr ⟨p, rfl⟩⟩
      · rename_i hsp
        refine Or.inr ⟨rest, [], rfl, by simp, ?_, Or.inl rfl⟩
        intro hmem
        have := splitFirstChar_isSome_of_mem '/' rest hmem
        rw [hsp] at this
        simp at this
    · rw [if_neg hcd]
      exact Or.inl rfl
  · exact Or.inl rfl

theorem splitOnChar_head_sep (sep : Char) (r : List Char) :
    (splitOnChar sep (sep :: r)).head? = some [] := by
  obtain ⟨hd, tl, hht⟩ := List.exists_cons_of_ne_nil (splitOnChar_ne_nil sep r)
  rw [splitOnChar_cons, hht]
  simp

theorem splitFirstChar_mem_right (sep : Char) (l a b : List Char)
    (h : splitFirstChar sep l = some (a, b)) : ∀ x ∈ b, x ∈ l := by
  intro x hx
  obtain ⟨h1, _⟩ := splitFirstChar_eq sep l a b h
  subst h1
  simp [hx]

theorem splitOpt_snd_mem (sep : Char) (l b : List Char)
    (h : (splitOpt sep l).2 = some b) : ∀ x ∈ b, x ∈ l := by
  unfold splitOpt at h
  cases hsp : splitFirstChar sep l with
  | none => rw [hsp] at h; simp at h
  | some p =>
      rw [hsp] at h
      simp at h
      subst h
      exact splitFirstChar_mem_right sep l p.1 p.2 (by rw [hsp])

theorem parseScheme_valid (l : List Char) :
    ∀ s, (parseScheme l).1 = some s → validScheme s = true := by
  rcases parseScheme_cases l with h | ⟨s', rest, h, _, hv, _⟩ <;> rw [h]
  · simp
  · intro s hs
    injection hs with hs
    subst hs
    exact hv

theorem parseScheme_mem (l : List Char) : ∀ x ∈ (parseScheme l).2, x ∈ l := by
  rcases parseScheme_cases l with h | ⟨s', rest, h, hrest, _, _⟩ <;> rw [h]
  · exact fun x hx => hx
  · intro x hx
    rw [hrest]
    simp [hx]

theorem parseAuthPath_wf_parts (l3 : List Char)
    (hmem3 : ∀ x ∈ l3, x ≠ '#' ∧ x ≠ '?') :
    (∀ a, (parseAuthPath l3).1 = some a → '/' ∉ a ∧ '?' ∉ a ∧ '#' ∉ a) ∧
    (∀ s ∈ splitOnChar '/' (parseAuthPath l3).2, okSeg s) ∧
    splitOnChar '/' (parseAuthPath l3).2 ≠ [] ∧
    ((parseAuthPath l3).1.isSome = true →
      (splitOnChar '/' (parseAuthPath l3).2).head? = some []) := by
  rcases parseAuthPath_cases l3 with hap | ⟨a, p, hap, hl3, hsl, hpshape⟩
  · rw [hap]
    refine ⟨by simp, ?_, splitOnChar_ne_nil '/' l3, by simp⟩
    intro s hs
    refine ⟨splitOnChar_not_mem '/' l3 s hs, ?_, ?_⟩
    · intro hmem
      exact (hmem3 '?' (splitOnChar_mem_mem '/' l3 s hs '?' hmem)).2 rfl
    · intro hmem
      exact (hmem3 '#' (splitOnChar_mem_mem '/' l3 s hs '#' hmem)).1 rfl
  · rw [hap]
    have hmema : ∀ x ∈ a, x ∈ l3 := by
      intro x hx
      rw [hl3]
      simp [hx]
    have hmemp : ∀ x ∈ p, x ∈ l3 := by
      intro x hx
      rw [hl3]
      simp [hx]
    refine ⟨?_, ?_, splitOnChar_ne_nil '/' p, ?_⟩
    · intro a' ha'
      injection ha' with ha'
      subst ha'
      exact ⟨hsl, fun hc => (hmem3 '?' (hmema '?' hc)).2 rfl,
        fun hc => (hmem3 '#' (hmema '#' hc)).1 rfl⟩
    · intro s hs
      refine ⟨splitOnChar_not_mem '/' p s hs, ?_, ?_⟩
      · intro hmem
        exact (hmem3 '?' (hmemp '?' (splitOnChar_mem_mem '/' p s hs '?' hmem))).2 rfl
      · intro hmem
        exact (hmem3 '#' (hmemp '#' (splitOnChar_mem_mem '/' p s hs '#' hmem))).1 rfl
    · intro _
      rcases hpshape with hp | ⟨r, hp⟩
      · subst hp; simp [splitOnChar]
      · subst hp; exact splitOnChar_head_sep '/' r

theorem parseRef_wf (l : List Char) : WFref (parseRef l) := by
  have hq1 : '#' ∉ (splitOpt '#' l).1 := splitOpt_not_mem '#' l
  have hq2 : '?' ∉ (splitOpt '?' (splitOpt '#' l).1).1 :=
    splitOpt_not_mem '?' (splitOpt '#' l).1
  have hq2' : ∀ x ∈ (splitOpt '?' (splitOpt '#' l).1).1, x ∈ (splitOpt '#' l).1 :=
    splitOpt_mem '?' (splitOpt '#' l).1
  have hmem2 : ∀ x ∈ (splitOpt '?' (splitOpt '#' l).1).1, x ≠ '#' ∧ x ≠ '?' := by
    intro x hx
    constructor
    · intro he; subst he; exact hq1 (hq2' _ hx)
    · intro he; subst he; exact hq2 hx
  have hmem3 : ∀ x ∈ (parseScheme (splitOpt '?' (splitOpt '#' l).1).1).2,
      x ≠ '#' ∧ x ≠ '?' :=
    fun x hx => hmem2 x (parseScheme_mem _ x hx)
  obtain ⟨hauth, hsegs, hne, hhead⟩ := parseAuthPath_wf_parts _ hmem3
  refine ⟨?_, hauth, hsegs, ?_, hne, hhead⟩
  · exact parseScheme_valid _
  · intro q hq
    intro hmem
    exact hq1 (splitOpt_snd_mem '?' (splitOpt '#' l).1 q hq '#' hmem)

theorem okSeg_nil : okSeg [] := ⟨by simp, by simp, by simp⟩

theorem rds_mem (segs : List (List Char)) :
    ∀ s ∈ rds segs, s ∈ segs ∨ s = [] := by
  unfold rds
  split
  · intro s hs
    rcases List.mem_append.mp hs with hs | hs
    · rcases foldl_rdsStep_mem segs [] s hs with h | h
      · simp at h
      · exact Or.inl h
    · simp at hs
      exact Or.inr hs
  · intro s hs
    rcases foldl_rdsStep_mem segs [] s hs with h | h
    · simp at h
    · exact Or.inl h

theorem mergePaths_mem (B : URIRef) (rsegs : List (List Char)) :
    ∀ s ∈ mergePaths B rsegs, s ∈ B.segs ∨ s ∈ rsegs ∨ s = [] := by
  unfold mergePaths
  split
  · intro s hs
    rcases List.mem_cons.mp hs with hs | hs
    · exact Or.inr (Or.inr hs)
    · exact Or.inr (Or.inl hs)
  · intro s hs
    rcases List.mem_append.mp hs with hs | hs
    · exact Or.inl ((List.dropLast_sublist _).subset hs)
    · exact Or.inr (Or.inl hs)

theorem mergePaths_ne_nil (B : URIRef) (rsegs : List (List Char))
    (h : rsegs ≠ []) : mergePaths B rsegs ≠ [] := by
  unfold mergePaths
  split
  · simp
  · intro hc
    rcases List.append_eq_nil.mp hc with ⟨_, h2⟩
    exact h h2

theorem mergePaths_head (B : URIRef) (rsegs : List (List Char))
    (hBhd : B.segs.head? = some []) (hBne : B.segs ≠ [[]]) :
    (mergePaths B rsegs).head? = some [] := by
  unfold mergePaths
  split
  · rename_i hcond
    exact absurd hcond.2 hBne
  · obtain ⟨t, ht⟩ : ∃ t, B.segs = [] :: t := by
      cases hseg : B.segs with
      | nil => rw [hseg] at hBhd; simp at hBhd
      | cons x t =>
          rw [hseg] at hBhd
          simp only [List.head?_cons, Option.some.injEq] at hBhd
          exact ⟨t, by rw [hBhd]⟩
    rw [ht]
    rw [ht] at hBne
    cases t with
    | nil => simp at hBne
    | cons y t' =>
        rw [List.dropLast_cons₂]
        simp

theorem parseBase_wf (l : List Char) (B : URIRef) (h : parseBase l = some B) :
    WFref B ∧ noDotSegs B.segs ∧ B.scheme.isSome = true ∧ B.auth.isSome = true := by
  unfold parseBase at h
  obtain ⟨hRsc, hRau, hRsg, hRq, hRne, hRhd⟩ := parseRef_wf l
  split at h
  · rename_i s0 a0 hs ha
    injection h with h
    subst h
    refine ⟨⟨?_, ?_, ?_, ?_, ?_, ?_⟩, ?_, ?_, ?_⟩
    · exact hRsc
    · exact hRau
    · intro s hs'
      rcases rds_mem _ s hs' with h | h
      · exact hRsg s h
      · exact h ▸ okSeg_nil
    · exact hRq
    · exact rds_ne_nil _ hRne
    · intro hsome
      exact rds_head_root _ (hRhd hsome)
    · exact rds_noDots _
    · simp [hs]
    · simp [ha]
  · exact absurd h (by simp)

theorem resolveRef_wf (B R : URIRef)
    (hB : WFref B) (hBd : noDotSegs B.segs) (hBs : B.scheme.isSome = true)
    (hBa : B.auth.isSome = true) (hR : WFref R) :
    WFabs (resolveRef B R) := by
  obtain ⟨hBsc, hBau, hBsg, hBq, hBne, hBhd⟩ := hB
  obtain ⟨hRsc, hRau, hRsg, hRq, hRne, hRhd⟩ := hR
  have hsegsR : ∀ s ∈ rds R.segs, okSeg s := by
    intro s hs
    rcases rds_mem _ s hs with h | h
    · exact hRsg s h
    · exact h ▸ okSeg_nil
  unfold resolveRef
  cases hs : R.scheme with
  | some s =>
      refine ⟨⟨?_, hRau, hsegsR, hRq, rds_ne_nil _ hRne, ?_⟩, rds_noDots _, by simp⟩
      · intro s' hs'
        injection hs' with hs'
        subst hs'
        exact hRsc s (by rw [hs])
      · intro hsome
        exact rds_head_root _ (hRhd hsome)
  | none =>
      cases ha : R.auth with
      | some a =>
          refine ⟨⟨hBsc, ?_, hsegsR, hRq, rds_ne_nil _ hRne, ?_⟩, rds_noDots _, hBs⟩
          · intro a' ha'
            injection ha' with ha'
            subst ha'
            exact hRau a (by rw [ha])
          · intro _
            exact rds_head_root _ (hRhd (by rw [ha]; rfl))
      | none =>
          by_cases h1 : R.segs = [[]]
          · rw [if_pos h1]
            refine ⟨⟨hBsc, hBau, hBsg, ?_, hBne, hBhd⟩, hBd, hBs⟩
            intro q hq
            cases hRqv : R.query with
            | some q0 =>
                rw [hRqv] at hq
                injection hq with hq
                subst hq
                exact hRq q0 (by rw [hRqv])
            | none =>
                rw [hRqv] at hq
                exact hBq q hq
          · rw [if_neg h1]
            by_cases h2 : R.segs.head? = some []
            · rw [if_pos h2]
              refine ⟨⟨hBsc, hBau, hsegsR, hRq, rds_ne_nil _ hRne, ?_⟩,
                rds_noDots _, hBs⟩
              intro _
              exact rds_head_root _ h2
            · rw [if_neg h2]
              have hmne := mergePaths_ne_nil B R.segs hRne
              refine ⟨⟨hBsc, hBau, ?_, hRq, rds_ne_nil _ hmne, ?_⟩,
                rds_noDots _, hBs⟩
              · intro s hsm
                rcases rds_mem _ s hsm with h | h
                · rcases mergePaths_mem B R.segs s h with h | h | h
                  · exact hBsg s h
                  · exact hRsg s h
                  · exact h ▸ okSeg_nil
                · exact h ▸ okSeg_nil
              · intro _
                apply rds_head_root
                by_cases hB1 : B.segs = [[]]
                · unfold mergePaths
                  rw [if_pos ⟨hBa, hB1⟩]
                  simp
                · exact mergePaths_head B R.segs (hBhd hBa) hB1

/-! ### Serialization round-trip -/

/-- The segment list obtained when re-parsing a serialized reference: identical
to the original except that the `/.` serialization guard introduces a `.`
segment (removed again by resolution). -/
def pSegs (u : URIRef) : List (List Char) :=
  match u.auth, u.segs with
  | none, [] :: [] :: t => [] :: ['.'] :: [] :: t
  | _, _ => u.segs

theorem joinSep_mem (sep : Char) (segs : List (List Char)) :
    ∀ x ∈ joinSep sep segs, x = sep ∨ ∃ s ∈ segs, x ∈ s := by
  induction segs with
  | nil => simp [joinSep]
  | cons a rest ih =>
      cases rest with
      | nil =>
          intro x hx
          exact Or.inr ⟨a, List.mem_cons_self a [], hx⟩
      | cons b t =>
          intro x hx
          rw [joinSep_cons_cons] at hx
          rcases List.mem_append.mp hx with hx | hx
          · exact Or.inr ⟨a, List.mem_cons_self a _, hx⟩
          · rcases List.mem_cons.mp hx with hx | hx
            · exact Or.inl hx
            · rcases ih x hx with hx | ⟨s', hs', hx⟩
              · exact Or.inl hx
              · exact Or.inr ⟨s', List.mem_cons_of_mem a hs', hx⟩

theorem serializePath_mem (u : URIRef) :
    ∀ x ∈ serializePath u, x = '/' ∨ x = '.' ∨ ∃ s ∈ u.segs, x ∈ s := by
  unfold serializePath
  split
  · intro x hx
    rcases List.mem_cons.mp hx with hx | hx
    · exact Or.inl hx
    · rcases List.mem_cons.mp hx with hx | hx
      · exact Or.inr (Or.inl hx)
      · rcases joinSep_mem '/' u.segs x hx with hx | hx
        · exact Or.inl hx
        · exact Or.inr (Or.inr hx)
  · intro x hx
    rcases joinSep_mem '/' u.segs x hx with hx | hx
    · exact Or.inl hx
    · exact Or.inr (Or.inr hx)

theorem validScheme_no (s : List Char) (h : validScheme s = true) (c : Char)
    (hc : c.isAlphanum = false) (h1 : c ≠ '+') (h2 : c ≠ '-') (h3 : c ≠ '.') :
    c ∉ s := by
  match s, h with
  | a :: rest, h =>
      simp only [validScheme, Bool.and_eq_true] at h
      intro hmem
      rcases List.mem_cons.mp hmem with hm | hm
      · subst hm
        have : c.isAlphanum = true := by
          simp [Char.isAlphanum, h.1]
        rw [hc] at this
        exact Bool.noConfusion this
      · have := h.2
        rw [List.all_eq_true] at this
        have hv := this c hm
        simp [validSchemeChar, hc, h1, h2, h3] at hv

theorem hash_not_mem_core (u : URIRef) (hWF : WFref u) :
    '#' ∉ (match u.scheme with | some s => s ++ [':'] | none => []) ++
      (match u.auth with | some a => '/' :: '/' :: a | none => []) ++
      serializePath u ++
      (match u.query with | some q => '?' :: q | none => []) := by
  obtain ⟨hsc, hau, hsg, hq, _, _⟩ := hWF
  intro hmem
  simp only [List.append_assoc, List.mem_append] at hmem
  rcases hmem with hm | hm | hm | hm
  · cases hu : u.scheme with
    | none => rw [hu] at hm; simp at hm
    | some s =>
        rw [hu] at hm
        rcases List.mem_append.mp hm with hm | hm
        · exact validScheme_no s (hsc s hu) '#' (by decide) (by decide)
            (by decide) (by decide) hm
        · simp at hm
  · cases hu : u.auth with
    | none => rw [hu] at hm; simp at hm
    | some a =>
        rw [hu] at hm
        rcases List.mem_cons.mp hm with hm | hm
        · exact absurd hm (by decide)
        · rcases List.mem_cons.mp hm with hm | hm
          · exact absurd hm (by decide)
          · exact (hau a hu).2.2 hm
  · rcases serializePath_mem u '#' hm with hm | hm | ⟨s', hs', hm⟩
    · exact absurd hm (by decide)
    · exact absurd hm (by decide)
    · exact (hsg s' hs').2.2 hm
  · cases hu : u.query with
    | none => rw [hu] at hm; simp at hm
    | some q =>
        rw [hu] at hm
        rcases List.mem_cons.mp hm with hm | hm
        · exact absurd hm (by decide)
        · exact hq q hu hm

theorem query_not_mem_core (u : URIRef) (hWF : WFref u) :
    '?' ∉ (match u.scheme with | some s => s ++ [':'] | none => []) ++
      (match u.auth with | some a => '/' :: '/' :: a | none => []) ++
      serializePath u := by
  obtain ⟨hsc, hau, hsg, hq, _, _⟩ := hWF
  intro hmem
  simp only [List.append_assoc, List.mem_append] at hmem
  rcases hmem with hm | hm | hm
  · cases hu : u.scheme with
    | none => rw [hu] at hm; simp at hm
    | some s =>
        rw [hu] at hm
        rcases List.mem_append.mp hm with hm | hm
        · exact validScheme_no s (hsc s hu) '?' (by decide) (by decide)
            (by decide) (by decide) hm
        · simp at hm
  · cases hu : u.auth with
    | none => rw [hu] at hm; simp at hm
    | some a =>
        rw [hu] at hm
        rcases List.mem_cons.mp hm with hm | hm
        · exact absurd hm (by decide)
        · rcases List.mem_cons.mp hm with hm | hm
          · exact absurd hm (by decide)
          · exact (hau a hu).2.1 hm
  · rcases serializePath_mem u '?' hm with hm | hm | ⟨s', hs', hm⟩
    · exact absurd hm (by decide)
    · exact absurd hm (by decide)
    · exact (hsg s' hs').2.1 hm

theorem splitOpt_append_opt (sep : Char) (pre : List Char) (o : Option (List Char))
    (h : sep ∉ pre) :
    splitOpt sep (pre ++ (match o with | some x => sep :: x | none => [])) =
      (pre, o) := by
  cases o with
  | some x =>
      unfold splitOpt
      rw [splitFirstChar_append sep pre x h]
  | none =>
      unfold splitOpt
      rw [List.append_nil, splitFirstChar_of_not_mem sep pre h]

theorem parseScheme_append (s rest : List Char) (hv : validScheme s = true)
    (hc : ':' ∉ s) : parseScheme (s ++ ':' :: rest) = (some s, rest) := by
  unfold parseScheme
  rw [splitFirstChar_append ':' s rest hc]
  simp [hv]

theorem parseAuthPath_auth (a tailp : List Char) (ha : '/' ∉ a)
    (htail : tailp = [] ∨ ∃ r, tailp = '/' :: r) :
    parseAuthPath ('/' :: '/' :: (a ++ tailp)) = (some a, tailp) := by
  rcases htail with h | ⟨r, h⟩
  · subst h
    unfold parseAuthPath
    rw [List.append_nil]
    simp [splitFirstChar_of_not_mem '/' a ha]
  · subst h
    unfold parseAuthPath
    simp [splitFirstChar_append '/' a r ha]

theorem parseAuthPath_no (l : List Char) (h : ∀ r, l ≠ '/' :: '/' :: r) :
    parseAuthPath l = (none, l) := by
  unfold parseAuthPath
  split
  · rename_i c d rest
    rw [if_neg]
    intro ⟨hc, hd⟩
    subst hc; subst hd
    exact h rest rfl
  · rfl

theorem joinSep_slash2 (segs : List (List Char)) (h : ∀ s ∈ segs, '/' ∉ s)
    (r : List Char) (hr : joinSep '/' segs = '/' :: '/' :: r) :
    ∃ t, segs = [] :: [] :: t := by
  match segs with
  | [] => simp [joinSep] at hr
  | [x] =>
      simp only [joinSep] at hr
      have hx : '/' ∈ x := by rw [hr]; simp
      exact absurd hx (h x (by simp))
  | x :: y :: t =>
      rw [joinSep_cons_cons] at hr
      match x, hr with
      | [], hr =>
          simp only [List.nil_append] at hr
          injection hr with h1 h2
          match y, h2 with
          | [], h2 => exact ⟨t, rfl⟩
          | c :: y', h2 =>
              exfalso
              match t, h2 with
              | [], h2 =>
                  simp only [joinSep] at h2
                  injection h2 with h2a
                  refine absurd ?_ (h (c :: y') (by simp))
                  rw [h2a]
                  simp
              | z :: t2, h2 =>
                  rw [joinSep_cons_cons] at h2
                  simp only [List.cons_append] at h2
                  injection h2 with h2a
                  refine absurd ?_ (h (c :: y') (by simp))
                  rw [h2a]
                  simp
      | c :: x', hr =>
          exfalso
          simp only [List.cons_append] at hr
          injection hr with h1 h2
          refine absurd ?_ (h (c :: x') (by simp))
          rw [h1]
          simp

theorem parseRef_serializeURI (u : URIRef) (hWF : WFref u) (s : List Char)
    (hs : u.scheme = some s) :
    parseRef (serializeURI u) =
      { scheme := some s, auth := u.auth, segs := pSegs u,
        query := u.query, frag := u.frag } := by
  obtain ⟨hsc, hau, hsg, hq, hne, hhd⟩ := hWF
  have hvs : validScheme s = true := hsc s hs
  have hcols : ':' ∉ s :=
    validScheme_no s hvs ':' (by decide) (by decide) (by decide) (by decide)
  unfold parseRef serializeURI
  rw [splitOpt_append_opt '#' _ u.frag
    (by
      have := hash_not_mem_core u ⟨hsc, hau, hsg, hq, hne, hhd⟩
      simpa [List.append_assoc] using this)]
  dsimp only
  rw [splitOpt_append_opt '?' _ u.query
    (by
      have := query_not_mem_core u ⟨hsc, hau, hsg, hq, hne, hhd⟩
      simpa [List.append_assoc] using this)]
  dsimp only
  rw [hs]
  have hassoc : (s ++ [':']) ++
      (match u.auth with | some a => '/' :: '/' :: a | none => []) ++
      serializePath u =
      s ++ ':' :: ((match u.auth with | some a => '/' :: '/' :: a | none => []) ++
        serializePath u) := by
    simp [List.append_assoc]
  rw [hassoc, parseScheme_append s _ hvs hcols]
  dsimp only
  cases hua : u.auth with
  | some a =>
      dsimp only
      have hsegshape : u.segs = [[]] ∨ ∃ t', u.segs = [] :: t' ∧ t' ≠ [] := by
        have hh := hhd (by rw [hua]; rfl)
        cases hseg : u.segs with
        | nil => rw [hseg] at hh; simp at hh
        | cons x t =>
            rw [hseg] at hh
            simp only [List.head?_cons, Option.some.injEq] at hh
            subst hh
            cases t with
            | nil => exact Or.inl rfl
            | cons y t2 => exact Or.inr ⟨y :: t2, rfl, by simp⟩
      have hpath : serializePath u = joinSep '/' u.segs := by
        unfold serializePath
        split
        · rename_i heq1 heq2
          rw [hua] at heq1
          exact absurd heq1 (by simp)
        · rfl
      have hslash : '/' ∉ a := (hau a hua).1
      rcases hsegshape with hseg | ⟨t', hseg, htne⟩
      · have : serializePath u = [] := by rw [hpath, hseg]; rfl
        rw [this]
        simp only [List.cons_append]
        rw [parseAuthPath_auth a [] hslash (Or.inl rfl)]
        simp only [splitOnChar]
        rw [show pSegs u = u.segs by
          unfold pSegs; rw [hua]]
        rw [hseg]
      · obtain ⟨y, t2, ht2⟩ := List.exists_cons_of_ne_nil htne
        have hjoin : joinSep '/' u.segs = '/' :: joinSep '/' (y :: t2) := by
          rw [hseg, ht2, joinSep_cons_cons]
          simp
        rw [hpath, hjoin]
        simp only [List.cons_append]
        rw [parseAuthPath_auth a ('/' :: joinSep '/' (y :: t2)) hslash
          (Or.inr ⟨joinSep '/' (y :: t2), rfl⟩)]
        rw [show '/' :: joinSep '/' (y :: t2) = joinSep '/' u.segs by rw [hjoin]]
        rw [splitOnChar_joinSep '/' u.segs hne (fun s' hs' => (hsg s' hs').1)]
        rw [show pSegs u = u.segs by unfold pSegs; rw [hua]]
  | none =>
      dsimp only
      simp only [List.nil_append]
      by_cases hguard : ∃ t, u.segs = [] :: [] :: t
      · obtain ⟨t, hseg⟩ := hguard
        have hpath : serializePath u = '/' :: '.' :: joinSep '/' u.segs := by
          unfold serializePath
          rw [hua, hseg]
        have hnd' : ∀ s' ∈ ([] : List Char) :: t, '/' ∉ s' := by
          intro s' hs'
          apply (hsg s' ?_).1
          rw [hseg]
          rcases List.mem_cons.mp hs' with h | h
          · rw [h]; exact List.mem_cons_self [] _
          · exact List.mem_cons_of_mem _ (List.mem_cons_of_mem _ h)
        have hjoin : joinSep '/' u.segs = '/' :: joinSep '/' ([] :: t) := by
          rw [hseg, joinSep_cons_cons]
          simp
        rw [hpath]
        rw [parseAuthPath_no ('/' :: '.' :: joinSep '/' u.segs)
          (by intro r hr; injection hr with h1 h2; injection h2 with h2; exact absurd h2 (by decide))]
        rw [hjoin]
        rw [show ('/' : Char) :: '.' :: '/' :: joinSep '/' ([] :: t) =
          [] ++ '/' :: (['.'] ++ '/' :: joinSep '/' ([] :: t)) by simp]
        rw [splitOnChar_append '/' [] _ (by simp)]
        rw [splitOnChar_append '/' ['.'] _ (by decide)]
        rw [splitOnChar_joinSep '/' ([] :: t) (by simp) hnd']
        rw [show pSegs u = [] :: ['.'] :: [] :: t by
          unfold pSegs; rw [hua, hseg]]
      · have hpath : serializePath u = joinSep '/' u.segs := by
          unfold serializePath
          split
          · rename_i heq1 heq2
            exact absurd ⟨_, heq2⟩ hguard
          · rfl
        have hnoslash2 : ∀ r, joinSep '/' u.segs ≠ '/' :: '/' :: r := by
          intro r hr
          exact hguard (joinSep_slash2 u.segs (fun s' hs' => (hsg s' hs').1) r hr)
        rw [hpath, parseAuthPath_no _ hnoslash2]
        rw [splitOnChar_joinSep '/' u.segs hne (fun s' hs' => (hsg s' hs').1)]
        rw [show pSegs u = u.segs by
          unfold pSegs
          split
          · rename_i heq1 heq2
            exact absurd ⟨_, heq2⟩ hguard
          · rfl]

theorem rds_pSegs (u : URIRef) (hnd : noDotSegs u.segs) (hne : u.segs ≠ []) :
    rds (pSegs u) = u.segs := by
  unfold pSegs
  split
  · rename_i t heq1 heq2
    rw [heq2]
    have hndt : noDotSegs (([] : List Char) :: t) := by
      intro s hs
      apply hnd
      rw [heq2]
      rcases List.mem_cons.mp hs with h | h
      · rw [h]; exact List.mem_cons_self [] _
      · exact List.mem_cons_of_mem _ (List.mem_cons_of_mem _ h)
    have hlast : lastIsDot ([] :: ['.'] :: [] :: t) = false := by
      cases hlt : (([] : List Char) :: t).getLast? with
      | none => simp at hlt
      | some s =>
          have hsm := getLast?_mem_self _ s hlt
          have := hndt s hsm
          rw [lastIsDot_of_getLast? _ s ?_]
          · simp [this.1, this.2]
          · rw [List.getLast?_cons_cons, List.getLast?_cons_cons]
            exact hlt
    unfold rds
    rw [hlast]
    simp only [Bool.false_eq_true, if_false, List.foldl_cons]
    rw [show rdsStep (rdsStep (rdsStep [] []) ['.']) [] = [[], []] by rfl]
    rw [foldl_rdsStep_id t [[], []] (fun s hs => hndt s (List.mem_cons_of_mem _ hs))]
    rfl
  · exact rds_of_noDots u.segs hnd

theorem resolveRef_parse_serialize (B : URIRef) (u : URIRef) (h : WFabs u) :
    resolveRef B (parseRef (serializeURI u)) = u := by
  obtain ⟨hWF, hnd, hsome⟩ := h
  obtain ⟨s, hs⟩ := Option.isSome_iff_exists.mp hsome
  rw [parseRef_serializeURI u hWF s hs]
  unfold resolveRef
  dsimp only
  rw [rds_pSegs u hnd hWF.2.2.2.2.1]
  obtain ⟨usch, uau, usg, uq, uf⟩ := u
  simp only at hs
  rw [hs]

theorem toAbsolute_idem (base url : String) :
    toAbsolute base (toAbsolute base url) = toAbsolute base url := by
  unfold toAbsolute resolveChars
  cases hB : parseBase base.data with
  | none => rfl
  | some B =>
      dsimp only
      obtain ⟨hBwf, hBnd, hBs, hBa⟩ := parseBase_wf base.data B hB
      rw [resolveRef_parse_serialize B (resolveRef B (parseRef url.data))
        (resolveRef_wf B (parseRef url.data) hBwf hBnd hBs hBa (parseRef_wf url.data))]

theorem serializeURI_ne_nil (u : URIRef) (h : u.scheme.isSome = true) :
    serializeURI u ≠ [] := by
  obtain ⟨s, hs⟩ := Option.isSome_iff_exists.mp h
  unfold serializeURI
  rw [hs]
  simp

theorem toAbsolute_ne_empty (base url : String) (h : url ≠ "") :
    toAbsolute base url ≠ "" := by
  unfold toAbsolute resolveChars
  cases hB : parseBase base.data with
  | none => exact h
  | some B =>
      dsimp only
      intro hc
      obtain ⟨hBwf, hBnd, hBs, hBa⟩ := parseBase_wf base.data B hB
      have hsch :=
        (resolveRef_wf B (parseRef url.data) hBwf hBnd hBs hBa (parseRef_wf url.data)).2.2
      apply serializeURI_ne_nil _ hsch
      have hdq : (⟨serializeURI (resolveRef B (parseRef url.data))⟩ : String).data
          = ("" : String).data := by rw [hc]
      simpa using hdq

/-! ## The DOM model

Elements carry a tag name, an attribute list and children; a document is the
node list of the parsed page's content.  The tree is a mutual inductive pair
so that every traversal is structurally recursive and computes by kernel
reduction. -/

mutual
/-- A DOM node: an element with tag, attributes and children, or a text node. -/
inductive Node where
  | elem (tag : String) (attrs : List (String × String)) (children : NodeList)
  | text (s : String)
deriving DecidableEq
/-- A list of sibling DOM nodes. -/
inductive NodeList where
  | nil
  | cons (n : Node) (ns : NodeList)
deriving DecidableEq
end

/-- `getAttribute`: the value of the first attribute with the given name. -/
def getAttr (k : String) : List (String × String) → Option String
  | [] => none
  | (k', v) :: rest => if k' = k then some v else getAttr k rest

/-- `setAttribute`: replace the value of an existing attribute in place, or
append the attribute when absent. -/
def setAttr (k v : String) (attrs : List (String × String)) :
    List (String × String) :=
  if attrs.any (fun p => p.1 = k) then
    attrs.map (fun p => if p.1 = k then (k, v) else p)
  else attrs ++ [(k, v)]

/-- `removeAttribute`: drop every attribute with the given name. -/
def removeAttr (k : String) (attrs : List (String × String)) :
    List (String × String) :=
  attrs.filter (fun p => p.1 ≠ k)

mutual
/-- `textContent` of a node: concatenation of all descendant text. -/
def textContentN : Node → String
  | .elem _ _ cs => textContentL cs
  | .text s => s
/-- `textContent` across a node list. -/
def textContentL : NodeList → String
  | .nil => ""
  | .cons n ns => textContentN n ++ textContentL ns
end

mutual
/-- Whether some element with the given tag occurs anywhere in the tree. -/
def containsTagN (t : String) : Node → Bool
  | .elem tg _ cs => tg = t || containsTagL t cs
  | .text _ => false
/-- `containsTagN` across a node list. -/
def containsTagL (t : String) : NodeList → Bool
  | .nil => false
  | .cons n ns => containsTagN t n || containsTagL t ns
end

mutual
/-- Remove every element whose tag is in the list, subtree included
(embedding of `doc.querySelectorAll(sel).forEach(el => el.remove())` for a
comma-separated tag selector). -/
def removeTagsN (ts : List String) : Node → Node
  | .elem tg a cs => .elem tg a (removeTagsL ts cs)
  | .text s => .text s
/-- `removeTagsN` across a node list, dropping matching elements. -/
def removeTagsL (ts : List String) : NodeList → NodeList
  | .nil => .nil
  | .cons (.elem tg a cs) ns =>
      if tg ∈ ts then removeTagsL ts ns
      else .cons (.elem tg a (removeTagsL ts cs)) (removeTagsL ts ns)
  | .cons (.text s) ns => .cons (.text s) (removeTagsL ts ns)
end

/-- The iframe variant's sanitizer:
`doc.querySelectorAll('script, iframe, object, embed').forEach(el => el.remove())`. -/
def sanitizeIframe (d : NodeList) : NodeList :=
  removeTagsL ["script", "iframe", "object", "embed"] d

/-- The direct-DOM variant's removal list (`irrelevantTags` in `App.tsx`). -/
def irrelevantTags : List String :=
  ["script", "style", "noscript", "iframe", "svg", "nav", "footer", "header",
   "aside", "form", "ads", "button"]

/-- The direct-DOM variant's sanitizer: one `querySelectorAll(tag).remove()`
pass per entry of `irrelevantTags`, in order. -/
def sanitizeDirect (d : NodeList) : NodeList :=
  irrelevantTags.foldl (fun acc t => removeTagsL [t] acc) d

theorem removeTags_noL (ts : List String) (t : String) (ht : t ∈ ts) :
    ∀ d : NodeList, containsTagL t (removeTagsL ts d) = false
  | .nil => by simp [removeTagsL, containsTagL]
  | .cons (.text s) ns => by
      simp only [removeTagsL, containsTagL, containsTagN, Bool.false_or]
      exact removeTags_noL ts t ht ns
  | .cons (.elem tg a cs) ns => by
      by_cases htg : tg ∈ ts
      · simp only [removeTagsL, if_pos htg]
        exact removeTags_noL ts t ht ns
      · have htgne : tg ≠ t := fun h => htg (h ▸ ht)
        simp only [removeTagsL, if_neg htg, containsTagL, containsTagN,
          Bool.or_eq_false_iff]
        refine ⟨⟨?_, removeTags_noL ts t ht cs⟩, removeTags_noL ts t ht ns⟩
        simp [htgne]

theorem removeTags_monoL (ts : List String) (t : String) :
    ∀ d : NodeList, containsTagL t (removeTagsL ts d) = true → containsTagL t d = true
  | .nil => by simp [removeTagsL]
  | .cons (.text s) ns => by
      simp only [removeTagsL, containsTagL, containsTagN, Bool.false_or]
      exact removeTags_monoL ts t ns
  | .cons (.elem tg a cs) ns => by
      by_cases htg : tg ∈ ts
      · simp only [removeTagsL, if_pos htg]
        intro h
        simp only [containsTagL, containsTagN, Bool.or_eq_true]
        exact Or.inr (removeTags_monoL ts t ns h)
      · simp only [removeTagsL, if_neg htg, containsTagL, containsTagN,
          Bool.or_eq_true]
        intro h
        rcases h with (h | h) | h
        · exact Or.inl (Or.inl h)
        · exact Or.inl (Or.inr (removeTags_monoL ts t cs h))
        · exact Or.inr (removeTags_monoL ts t ns h)

theorem foldl_removeTags_false (t : String) (tags : List String) :
    ∀ d : NodeList, containsTagL t d = false →
      containsTagL t (tags.foldl (fun acc t' => removeTagsL [t'] acc) d) = false := by
  induction tags with
  | nil => exact fun d h => h
  | cons t' rest ih =>
      intro d h
      simp only [List.foldl_cons]
      apply ih
      cases hc : containsTagL t (removeTagsL [t'] d) with
      | false => rfl
      | true => rw [removeTags_monoL [t'] t d hc] at h; exact h

theorem foldl_removeTags_mem (t : String) (tags : List String) (ht : t ∈ tags) :
    ∀ d : NodeList,
      containsTagL t (tags.foldl (fun acc t' => removeTagsL [t'] acc) d) = false := by
  induction tags with
  | nil => simp at ht
  | cons t' rest ih =>
      intro d
      simp only [List.foldl_cons]
      rcases List.mem_cons.mp ht with h | h
      · subst h
        exact foldl_removeTags_false t rest _
          (removeTags_noL [t] t (List.mem_cons_self t []) d)
      · exact ih h _

/-! ## The URL rewriter (`rewriteUrls` in the iframe variant) -/

mutual
/-- Transform the attribute list of every element, by tag. -/
def mapAttrsN (f : String → List (String × String) → List (String × String)) :
    Node → Node
  | .elem tg a cs => .elem tg (f tg a) (mapAttrsL f cs)
  | .text s => .text s
/-- `mapAttrsN` across a node list. -/
def mapAttrsL (f : String → List (String × String) → List (String × String)) :
    NodeList → NodeList
  | .nil => .nil
  | .cons n ns => .cons (mapAttrsN f n) (mapAttrsL f ns)
end

/-- The `img` pass: `if (src) img.src = toAbsolute(src); img.removeAttribute('srcset')`. -/
def imgAttrs (base : String) (a : List (String × String)) :
    List (String × String) :=
  removeAttr "srcset"
    (match getAttr "src" a with
     | some v => if v = "" then a else setAttr "src" (toAbsolute base v) a
     | none => a)

/-- The `link` pass: `if (href) link.href = toAbsolute(href)`. -/
def linkAttrs (base : String) (a : List (String × String)) :
    List (String × String) :=
  match getAttr "href" a with
  | some v => if v = "" then a else setAttr "href" (toAbsolute base v) a
  | none => a

/-- The `a` pass: `if (href) a.href = toAbsolute(href); a.target = "_blank"`. -/
def aAttrs (base : String) (a : List (String × String)) :
    List (String × String) :=
  setAttr "target" "_blank"
    (match getAttr "href" a with
     | some v => if v = "" then a else setAttr "href" (toAbsolute base v) a
     | none => a)

/-- Restrict an attribute transformation to elements with one tag
(`querySelectorAll(tag)`). -/
def onTag (t : String) (f : List (String × String) → List (String × String))
    (tg : String) (a : List (String × String)) : List (String × String) :=
  if tg = t then f a else a

/-- The `rewriteUrls` helper: three whole-document passes, over `img`, `link`
and `a` elements, in source order. -/
def rewriteUrls (d : NodeList) (base : String) : NodeList :=
  mapAttrsL (onTag "a" (aAttrs base))
    (mapAttrsL (onTag "link" (linkAttrs base))
      (mapAttrsL (onTag "img" (imgAttrs base)) d))

/-- The elementwise effect of the three passes combined. -/
def rewriteAttrs (base tg : String) (a : List (String × String)) :
    List (String × String) :=
  if tg = "img" then imgAttrs base a
  else if tg = "link" then linkAttrs base a
  else if tg = "a" then aAttrs base a
  else a

mutual
theorem mapAttrsN_comp (f g : String → List (String × String) → List (String × String)) :
    ∀ n : Node, mapAttrsN f (mapAttrsN g n) = mapAttrsN (fun t a => f t (g t a)) n
  | .elem tg a cs => by
      simp only [mapAttrsN]
      exact congrArg _ (mapAttrsL_comp f g cs)
  | .text s => rfl
theorem mapAttrsL_comp (f g : String → List (String × String) → List (String × String)) :
    ∀ d : NodeList, mapAttrsL f (mapAttrsL g d) = mapAttrsL (fun t a => f t (g t a)) d
  | .nil => rfl
  | .cons n ns => by
      simp only [mapAttrsL]
      exact congrArg₂ _ (mapAttrsN_comp f g n) (mapAttrsL_comp f g ns)
end

mutual
theorem mapAttrsN_congr (f g : String → List (String × String) → List (String × String))
    (h : ∀ t a, f t a = g t a) :
    ∀ n : Node, mapAttrsN f n = mapAttrsN g n
  | .elem tg a cs => by
      simp only [mapAttrsN]
      exact congrArg₂ _ (h tg a) (mapAttrsL_congr f g h cs)
  | .text s => rfl
theorem mapAttrsL_congr (f g : String → List (String × String) → List (String × String))
    (h : ∀ t a, f t a = g t a) :
    ∀ d : NodeList, mapAttrsL f d = mapAttrsL g d
  | .nil => rfl
  | .cons n ns => by
      simp only [mapAttrsL]
      exact congrArg₂ _ (mapAttrsN_congr f g h n) (mapAttrsL_congr f g h ns)
end

theorem rewriteUrls_eq_mapAttrs (d : NodeList) (base : String) :
    rewriteUrls d base = mapAttrsL (rewriteAttrs base) d := by
  unfold rewriteUrls
  rw [mapAttrsL_comp, mapAttrsL_comp]
  apply mapAttrsL_congr
  intro t a
  unfold onTag rewriteAttrs
  by_cases h1 : t = "img"
  · simp [h1]
  · by_cases h2 : t = "link"
    · simp [h1, h2]
    · by_cases h3 : t = "a"
      · simp [h1, h2, h3]
      · simp [h1, h2, h3]

/-! ### Attribute-list lemmas -/

theorem getAttr_map_set (k v : String) :
    ∀ a : List (String × String), a.any (fun p => p.1 = k) = true →
      getAttr k (a.map (fun p => if p.1 = k then (k, v) else p)) = some v := by
  intro a
  induction a with
  | nil => simp
  | cons p rest ih =>
      intro h
      by_cases hp : p.1 = k
      · rw [List.map_cons, if_pos hp]
        simp [getAttr]
      · rw [List.map_cons, if_neg hp]
        obtain ⟨p1, p2⟩ := p
        simp only at hp
        simp only [getAttr, if_neg hp]
        apply ih
        simp only [List.any_cons, Bool.or_eq_true, decide_eq_true_eq] at h
        rcases h with h | h
        · exact absurd h hp
        · exact h

theorem getAttr_append_right (k : String) (b : List (String × String)) :
    ∀ a : List (String × String), a.any (fun p => p.1 = k) = false →
      getAttr k (a ++ b) = getAttr k b := by
  intro a
  induction a with
  | nil => simp
  | cons p rest ih =>
      intro h
      simp only [List.any_cons, Bool.or_eq_false_iff, decide_eq_false_iff_not] at h
      simp only [List.cons_append, getAttr, if_neg h.1]
      exact ih (by simp [h.2])

theorem getAttr_setAttr_self (k v : String) (a : List (String × String)) :
    getAttr k (setAttr k v a) = some v := by
  unfold setAttr
  by_cases h : a.any (fun p => p.1 = k) = true
  · rw [if_pos h]
    exact getAttr_map_set k v a h
  · rw [if_neg h]
    have h' : a.any (fun p => p.1 = k) = false := by
      cases hx : a.any (fun p => p.1 = k) with
      | false => rfl
      | true => exact absurd hx h
    rw [getAttr_append_right k _ a h']
    simp [getAttr]

theorem getAttr_map_ne (k k' v : String) (h : k' ≠ k) :
    ∀ a : List (String × String),
      getAttr k' (a.map (fun p => if p.1 = k then (k, v) else p)) = getAttr k' a := by
  intro a
  induction a with
  | nil => rfl
  | cons p rest ih =>
      obtain ⟨p1, p2⟩ := p
      by_cases hp : p1 = k
      · rw [List.map_cons]
        simp only [if_pos hp]
        simp only [getAttr, if_neg (Ne.symm h), hp, ih]
      · rw [List.map_cons]
        simp only [if_neg hp]
        simp only [getAttr]
        by_cases hpk : p1 = k'
        · rw [if_pos hpk, if_pos hpk]
        · rw [if_neg hpk, if_neg hpk]
          exact ih

theorem getAttr_append_single_ne (k k' v : String) (h : k' ≠ k) :
    ∀ a : List (String × String),
      getAttr k' (a ++ [(k, v)]) = getAttr k' a := by
  intro a
  induction a with
  | nil => simp [getAttr, Ne.symm h]
  | cons p rest ih =>
      obtain ⟨p1, p2⟩ := p
      simp only [List.cons_append, getAttr]
      by_cases hpk : p1 = k'
      · rw [if_pos hpk, if_pos hpk]
      · rw [if_neg hpk, if_neg hpk]
        exact ih

theorem getAttr_setAttr_ne (k k' v : String) (a : List (String × String))
    (h : k' ≠ k) : getAttr k' (setAttr k v a) = getAttr k' a := by
  unfold setAttr
  split
  · exact getAttr_map_ne k k' v h a
  · exact getAttr_append_single_ne k k' v h a

theorem getAttr_removeAttr_ne (k k' : String) (a : List (String × String))
    (h : k' ≠ k) : getAttr k' (removeAttr k a) = getAttr k' a := by
  unfold removeAttr
  induction a with
  | nil => simp
  | cons p rest ih =>
      obtain ⟨p1, p2⟩ := p
      by_cases hp : p1 = k
      · rw [List.filter_cons_of_neg (by simp [hp])]
        rw [ih]
        simp only [getAttr]
        rw [if_neg (by rw [hp]; exact Ne.symm h)]
      · rw [List.filter_cons_of_pos (by simp [hp])]
        simp only [getAttr]
        by_cases hpk : p1 = k'
        · rw [if_pos hpk, if_pos hpk]
        · rw [if_neg hpk, if_neg hpk]
          exact ih

theorem removeAttr_idem (k : String) (a : List (String × String)) :
    removeAttr k (removeAttr k a) = removeAttr k a := by
  unfold removeAttr
  rw [List.filter_filter]
  simp

/-- Key-presence in an attribute list. -/
def hasKey (k : String) (a : List (String × String)) : Bool :=
  a.any (fun p => p.1 = k)

/-- Every entry with the given key carries the given value. -/
def allVal (k v : String) (a : List (String × String)) : Prop :=
  ∀ p ∈ a, p.1 = k → p.2 = v

theorem hasKey_setAttr_self (k v : String) (a : List (String × String)) :
    hasKey k (setAttr k v a) = true := by
  unfold hasKey setAttr
  split
  · rename_i h
    induction a with
    | nil => simp at h
    | cons p rest ih =>
        by_cases hp : p.1 = k
        · simp [hp]
        · simp only [List.map_cons, if_neg hp, List.any_cons, Bool.or_eq_true]
          right
          apply ih
          simp only [List.any_cons, Bool.or_eq_true, decide_eq_true_eq] at h
          rcases h with h | h
          · exact absurd h hp
          · simpa using h
  · simp

theorem allVal_setAttr_self (k v : String) (a : List (String × String)) :
    allVal k v (setAttr k v a) := by
  unfold allVal setAttr
  split
  · intro p hp hk
    rcases List.mem_map.mp hp with ⟨q, hq, hqe⟩
    by_cases hqk : q.1 = k
    · rw [if_pos hqk] at hqe
      rw [← hqe]
    · rw [if_neg hqk] at hqe
      rw [← hqe] at hk
      exact absurd hk hqk
  · intro p hp hk
    rcases List.mem_append.mp hp with h | h
    · rename_i hany
      exfalso
      apply hany
      exact List.any_eq_true.mpr ⟨p, h, by simp [hk]⟩
    · simp only [List.mem_singleton] at h
      rw [h]

theorem hasKey_setAttr_ne (k j w : String) (a : List (String × String)) :
    hasKey k a = true → hasKey k (setAttr j w a) = true := by
  unfold hasKey setAttr
  intro h
  split
  · rcases List.any_eq_true.mp h with ⟨p, hp, hpk⟩
    apply List.any_eq_true.mpr
    refine ⟨if p.1 = j then (j, w) else p, List.mem_map_of_mem _ hp, ?_⟩
    by_cases hpj : p.1 = j
    · rw [if_pos hpj]
      simp only [decide_eq_true_eq] at hpk ⊢
      rw [← hpj, hpk]
    · rw [if_neg hpj]
      exact hpk
  · apply List.any_eq_true.mpr
    rcases List.any_eq_true.mp h with ⟨p, hp, hpk⟩
    exact ⟨p, List.mem_append_left _ hp, hpk⟩

theorem allVal_setAttr_ne (k v j w : String) (a : List (String × String))
    (hkj : k ≠ j) (h : allVal k v a) : allVal k v (setAttr j w a) := by
  unfold setAttr
  split
  · intro p hp hk
    rcases List.mem_map.mp hp with ⟨q, hq, hqe⟩
    by_cases hqj : q.1 = j
    · rw [if_pos hqj] at hqe
      rw [← hqe] at hk
      simp only at hk
      exact absurd hk (Ne.symm hkj)
    · rw [if_neg hqj] at hqe
      rw [← hqe] at hk ⊢
      exact h q hq hk
  · intro p hp hk
    rcases List.mem_append.mp hp with hm | hm
    · exact h p hm hk
    · simp only [List.mem_singleton] at hm
      rw [hm] at hk
      simp only at hk
      exact absurd hk (Ne.symm hkj)

theorem hasKey_removeAttr_ne (k j : String) (a : List (String × String))
    (hkj : k ≠ j) (h : hasKey k a = true) : hasKey k (removeAttr j a) = true := by
  unfold hasKey removeAttr
  rcases List.any_eq_true.mp h with ⟨p, hp, hpk⟩
  apply List.any_eq_true.mpr
  refine ⟨p, ?_, hpk⟩
  apply List.mem_filter.mpr
  refine ⟨hp, ?_⟩
  simp only [decide_eq_true_eq] at hpk
  simp [hpk, hkj]

theorem allVal_removeAttr (k v j : String) (a : List (String × String))
    (h : allVal k v a) : allVal k v (removeAttr j a) := by
  intro p hp hk
  exact h p (List.mem_filter.mp hp).1 hk

theorem map_set_of_allVal (k v : String) :
    ∀ a : List (String × String), allVal k v a →
      a.map (fun p => if p.1 = k then (k, v) else p) = a := by
  intro a
  induction a with
  | nil => intro _; rfl
  | cons p rest ih =>
      intro h
      simp only [List.map_cons]
      congr 1
      · by_cases hp : p.1 = k
        · rw [if_pos hp]
          have h2 := h p (List.mem_cons_self p rest) hp
          obtain ⟨p1, p2⟩ := p
          simp only at hp h2
          rw [hp, h2]
        · rw [if_neg hp]
      · exact ih (fun q hq hqk => h q (List.mem_cons_of_mem p hq) hqk)

theorem setAttr_of_uniform (k v : String) (a : List (String × String))
    (hpres : hasKey k a = true) (hval : allVal k v a) : setAttr k v a = a := by
  unfold setAttr
  unfold hasKey at hpres
  rw [if_pos hpres, map_set_of_allVal k v a hval]

theorem getAttr_removeAttr_self (k : String) (a : List (String × String)) :
    getAttr k (removeAttr k a) = none := by
  unfold removeAttr
  induction a with
  | nil => rfl
  | cons p rest ih =>
      obtain ⟨p1, p2⟩ := p
      by_cases hp : p1 = k
      · rw [List.filter_cons_of_neg (by simp [hp])]
        exact ih
      · rw [List.filter_cons_of_pos (by simp [hp])]
        simp only [getAttr, if_neg hp]
        exact ih

theorem imgAttrs_idem (base : String) (a : List (String × String)) :
    imgAttrs base (imgAttrs base a) = imgAttrs base a := by
  cases hsrc : getAttr "src" a with
  | none =>
      have hin : imgAttrs base a = removeAttr "srcset" a := by
        unfold imgAttrs
        rw [hsrc]
      rw [hin]
      unfold imgAttrs
      rw [getAttr_removeAttr_ne "srcset" "src" a (by decide), hsrc]
      exact removeAttr_idem "srcset" a
  | some v =>
      by_cases hv : v = ""
      · have hin : imgAttrs base a = removeAttr "srcset" a := by
          unfold imgAttrs
          rw [hsrc]
          dsimp only
          rw [if_pos hv]
        rw [hin]
        unfold imgAttrs
        rw [getAttr_removeAttr_ne "srcset" "src" a (by decide), hsrc]
        dsimp only
        rw [if_pos hv]
        exact removeAttr_idem "srcset" a
      · have hin : imgAttrs base a =
            removeAttr "srcset" (setAttr "src" (toAbsolute base v) a) := by
          unfold imgAttrs
          rw [hsrc]
          dsimp only
          rw [if_neg hv]
        rw [hin]
        unfold imgAttrs
        rw [getAttr_removeAttr_ne "srcset" "src" _ (by decide),
          getAttr_setAttr_self "src" (toAbsolute base v) a]
        dsimp only
        rw [if_neg (toAbsolute_ne_empty base v hv), toAbsolute_idem base v]
        rw [setAttr_of_uniform "src" (toAbsolute base v) _
          (hasKey_removeAttr_ne "src" "srcset" _ (by decide)
            (hasKey_setAttr_self "src" (toAbsolute base v) a))
          (allVal_removeAttr "src" (toAbsolute base v) "srcset" _
            (allVal_setAttr_self "src" (toAbsolute base v) a))]
        exact removeAttr_idem "srcset" _

theorem linkAttrs_idem (base : String) (a : List (String × String)) :
    linkAttrs base (linkAttrs base a) = linkAttrs base a := by
  cases hh : getAttr "href" a with
  | none =>
      have hin : linkAttrs base a = a := by
        unfold linkAttrs
        rw [hh]
      rw [hin]
      unfold linkAttrs
      rw [hh]
  | some v =>
      by_cases hv : v = ""
      · have hin : linkAttrs base a = a := by
          unfold linkAttrs
          rw [hh]
          dsimp only
          rw [if_pos hv]
        rw [hin]
        unfold linkAttrs
        rw [hh]
        dsimp only
        rw [if_pos hv]
      · have hin : linkAttrs base a = setAttr "href" (toAbsolute base v) a := by
          unfold linkAttrs
          rw [hh]
          dsimp only
          rw [if_neg hv]
        rw [hin]
        unfold linkAttrs
        rw [getAttr_setAttr_self "href" (toAbsolute base v) a]
        dsimp only
        rw [if_neg (toAbsolute_ne_empty base v hv), toAbsolute_idem base v]
        exact setAttr_of_uniform "href" (toAbsolute base v) _
          (hasKey_setAttr_self "href" (toAbsolute base v) a)
          (allVal_setAttr_self "href" (toAbsolute base v) a)

theorem aAttrs_idem (base : String) (a : List (String × String)) :
    aAttrs base (aAttrs base a) = aAttrs base a := by
  cases hh : getAttr "href" a with
  | none =>
      have hin : aAttrs base a = setAttr "target" "_blank" a := by
        unfold aAttrs
        rw [hh]
      rw [hin]
      unfold aAttrs
      rw [getAttr_setAttr_ne "target" "href" "_blank" a (by decide), hh]
      exact setAttr_of_uniform "target" "_blank" _
        (hasKey_setAttr_self "target" "_blank" a)
        (allVal_setAttr_self "target" "_blank" a)
  | some v =>
      by_cases hv : v = ""
      · have hin : aAttrs base a = setAttr "target" "_blank" a := by
          unfold aAttrs
          rw [hh]
          dsimp only
          rw [if_pos hv]
        rw [hin]
        unfold aAttrs
        rw [getAttr_setAttr_ne "target" "href" "_blank" a (by decide), hh]
        dsimp only
        rw [if_pos hv]
        exact setAttr_of_uniform "target" "_blank" _
          (hasKey_setAttr_self "target" "_blank" a)
          (allVal_setAttr_self "target" "_blank" a)
      · have hin : aAttrs base a =
            setAttr "target" "_blank" (setAttr "href" (toAbsolute base v) a) := by
          unfold aAttrs
          rw [hh]
          dsimp only
          rw [if_neg hv]
        rw [hin]
        unfold aAttrs
        rw [getAttr_setAttr_ne "target" "href" "_blank" _ (by decide),
          getAttr_setAttr_self "href" (toAbsolute base v) a]
        dsimp only
        rw [if_neg (toAbsolute_ne_empty base v hv), toAbsolute_idem base v]
        rw [setAttr_of_uniform "href" (toAbsolute base v) _
          (hasKey_setAttr_ne "href" "target" "_blank" _
            (hasKey_setAttr_self "href" (toAbsolute base v) a))
          (allVal_setAttr_ne "href" (toAbsolute base v) "target" "_blank" _
            (by decide) (allVal_setAttr_self "href" (toAbsolute base v) a))]
        exact setAttr_of_uniform "target" "_blank" _
          (hasKey_setAttr_self "target" "_blank" _)
          (allVal_setAttr_self "target" "_blank" _)

theorem rewriteAttrs_idem (base tg : String) (a : List (String × String)) :
    rewriteAttrs base tg (rewriteAttrs base tg a) = rewriteAttrs base tg a := by
  unfold rewriteAttrs
  by_cases h1 : tg = "img"
  · simp only [if_pos h1]
    exact imgAttrs_idem base a
  · by_cases h2 : tg = "link"
    · simp only [if_neg h1, if_pos h2]
      exact linkAttrs_idem base a
    · by_cases h3 : tg = "a"
      · simp only [if_neg h1, if_neg h2, if_pos h3]
        exact aAttrs_idem base a
      · simp only [if_neg h1, if_neg h2, if_neg h3]

/-! ### Path-indexed access into the tree -/

/-- The i-th node of a node list. -/
def nlGet : NodeList → Nat → Option Node
  | .nil, _ => none
  | .cons n _, 0 => some n
  | .cons _ ns, i + 1 => nlGet ns i

/-- The node at a path of child indices. -/
def nodeAt? (d : NodeList) : List Nat → Option Node
  | [] => none
  | [i] => nlGet d i
  | i :: p =>
      match nlGet d i with
      | some (.elem _ _ cs) => nodeAt? cs p
      | _ => none

/-- Tag and attribute list of the element at a path. -/
def attrsAt? (d : NodeList) (p : List Nat) :
    Option (String × List (String × String)) :=
  match nodeAt? d p with
  | some (.elem tg a _) => some (tg, a)
  | _ => none

theorem nlGet_mapAttrs (f : String → List (String × String) → List (String × String)) :
    ∀ (d : NodeList) (i : Nat),
      nlGet (mapAttrsL f d) i = (nlGet d i).map (mapAttrsN f)
  | .nil, _ => rfl
  | .cons n ns, 0 => rfl
  | .cons n ns, i + 1 => nlGet_mapAttrs f ns i

theorem nodeAt_mapAttrs (f : String → List (String × String) → List (String × String))
    (p : List Nat) :
    ∀ d : NodeList, nodeAt? (mapAttrsL f d) p = (nodeAt? d p).map (mapAttrsN f) := by
  induction p with
  | nil => intro d; rfl
  | cons i rest ih =>
      intro d
      cases rest with
      | nil => exact nlGet_mapAttrs f d i
      | cons j rest' =>
          show (match nlGet (mapAttrsL f d) i with
                | some (.elem _ _ cs) => nodeAt? cs (j :: rest')
                | _ => none) = _
          rw [nlGet_mapAttrs f d i]
          have hrhs : nodeAt? d (i :: j :: rest') =
              (match nlGet d i with
               | some (.elem _ _ cs) => nodeAt? cs (j :: rest')
               | _ => none) := rfl
          rw [hrhs]
          cases hg : nlGet d i with
          | none => rfl
          | some n =>
              cases n with
              | elem tg a cs => exact ih cs
              | text s => rfl

theorem attrsAt_mapAttrs (f : String → List (String × String) → List (String × String))
    (d : NodeList) (p : List Nat) :
    attrsAt? (mapAttrsL f d) p =
      (attrsAt? d p).map (fun q => (q.1, f q.1 q.2)) := by
  unfold attrsAt?
  rw [nodeAt_mapAttrs f p d]
  cases h : nodeAt? d p with
  | none => rfl
  | some n =>
      cases n with
      | elem tg a cs => rfl
      | text s => rfl

/-! ## Text extraction -/

mutual
/-- First element (preorder, the element itself included) whose tag matches
(`querySelector(tag)`). -/
def qsTagN (t : String) : Node → Option Node
  | .text _ => none
  | .elem tg a cs =>
      if tg = t then some (.elem tg a cs) else qsTagL t cs
/-- `qsTagN` across a node list. -/
def qsTagL (t : String) : NodeList → Option Node
  | .nil => none
  | .cons n ns =>
      match qsTagN t n with
      | some m => some m
      | none => qsTagL t ns
end

/-- The whitespace-separated class tokens of an element's `class` attribute. -/
def classTokens (attrs : List (String × String)) : List (List Char) :=
  (splitOnChar ' ' ((getAttr "class" attrs).getD "").data).filter (fun l => l ≠ [])

/-- Whether an element carries the given class token (`.cls` selector). -/
def hasClassTok (c : String) (attrs : List (String × String)) : Bool :=
  decide (c.data ∈ classTokens attrs)

mutual
/-- First element (preorder) with the given class token (`querySelector('.c')`). -/
def qsClassN (c : String) : Node → Option Node
  | .text _ => none
  | .elem tg a cs =>
      if hasClassTok c a then some (.elem tg a cs) else qsClassL c cs
/-- `qsClassN` across a node list. -/
def qsClassL (c : String) : NodeList → Option Node
  | .nil => none
  | .cons n ns =>
      match qsClassN c n with
      | some m => some m
      | none => qsClassL c ns
end

mutual
/-- First element (preorder) with the given id (`querySelector('#i')`). -/
def qsIdN (i : String) : Node → Option Node
  | .text _ => none
  | .elem tg a cs =>
      if getAttr "id" a = some i then some (.elem tg a cs) else qsIdL i cs
/-- `qsIdN` across a node list. -/
def qsIdL (i : String) : NodeList → Option Node
  | .nil => none
  | .cons n ns =>
      match qsIdN i n with
      | some m => some m
      | none => qsIdL i ns
end

/-- Children of a node (empty for text nodes). -/
def childrenOf : Node → NodeList
  | .elem _ _ cs => cs
  | .text _ => .nil

/-- The direct-DOM variant's content root selection:
`article`, `main`, `.content`, `#content`, `.post-body`, else `doc.body`
(the whole document list in this model). -/
def contentRootDirect (d : NodeList) : NodeList :=
  match qsTagL "article" d <|> qsTagL "main" d <|> qsClassL "content" d <|>
        qsIdL "content" d <|> qsClassL "post-body" d with
  | some n => childrenOf n
  | none => d

/-- The iframe variant's content root selection:
`article`, `main`, `.content`, else `doc.body`. -/
def contentRootIframe (d : NodeList) : NodeList :=
  match qsTagL "article" d <|> qsTagL "main" d <|> qsClassL "content" d with
  | some n => childrenOf n
  | none => d

/-- The block-level tags collected by the direct-DOM extractor. -/
def blockTags : List String :=
  ["p", "h1", "h2", "h3", "h4", "h5", "h6", "li", "blockquote"]

mutual
/-- `textContent` of every block-tagged element, in document (preorder)
order, nested matches included
(`querySelectorAll('p, h1, …, blockquote')` followed by `textContent`). -/
def blockTextsN : Node → List String
  | .text _ => []
  | .elem tg a cs =>
      (if tg ∈ blockTags then [textContentN (.elem tg a cs)] else []) ++
        blockTextsL cs
/-- `blockTextsN` across a node list. -/
def blockTextsL : NodeList → List String
  | .nil => []
  | .cons n ns => blockTextsN n ++ blockTextsL ns
end

/-- The direct-DOM extractor's raw collected block texts. -/
def collectedTexts (d : NodeList) : List String :=
  blockTextsL (contentRootDirect d)

/-- The direct-DOM extractor's surviving blocks: trimmed, with blocks of
trimmed length at most 40 dropped (`.filter(text => text.length > 40)`). -/
def textBlocks (d : NodeList) : List String :=
  ((collectedTexts d).map jsTrim).filter (fun t => 40 < t.length)

/-- The direct-DOM variant's ArticleText: surviving blocks joined by blank
lines. -/
def directArticleText (d : NodeList) : String :=
  joinWith "\n\n" (textBlocks d)

/-- Error message thrown by the direct-DOM extractor on short content. -/
def directTooShortMsg : String :=
  "Extracted content is too short. The website might be using complex JavaScript rendering."

/-- The direct-DOM extractor: fails when the joined text is shorter than 200
characters. -/
def extractDirect (d : NodeList) : Except String String :=
  if (directArticleText d).length < 200 then .error directTooShortMsg
  else .ok (directArticleText d)

/-- The iframe variant's ArticleText: whole-region text content, whitespace
collapsed and trimmed. -/
def iframeArticleText (d : NodeList) : String :=
  normalizeWS (textContentL (contentRootIframe d))

/-- Error message thrown by the iframe extractor on short content. -/
def iframeTooShortMsg : String :=
  "Could not extract meaningful text from this page."

/-- The iframe extractor: fails when the cleaned text is shorter than 100
characters. -/
def extractIframe (d : NodeList) : Except String String :=
  if (iframeArticleText d).length < 100 then .error iframeTooShortMsg
  else .ok (iframeArticleText d)

/-! ## The anchor locator -/

/-- Outcome of a locate attempt. -/
inductive LocOutcome where
  | found
  | nativeSel
  | notFoundAlert
  | noop
deriving DecidableEq

/-- The highlight span markup of the direct-DOM variant. -/
def spanWrapDirect (ca : String) : String :=
  "<span class=\"bg-yellow-200 transition-colors duration-1000\">" ++ ca ++ "</span>"

/-- A run of the direct-DOM locator: outcome, paragraph contents while the
highlight is shown, and after the 3000 ms timeout restores `originalHTML`. -/
structure DirectRun where
  outcome : LocOutcome
  during : List String
  after : List String
deriving DecidableEq

/-- Index and content of the first paragraph whose text contains the query. -/
def findPara (ca : String) : List String → Option (Nat × String)
  | [] => none
  | p :: rest =>
      if jsIncludes p ca then some (0, p)
      else (findPara ca rest).map (fun q => (q.1 + 1, q.2))

/-- The direct-DOM variant's `handleScrollToQuote`: scan the rendered `p`
elements for the trimmed anchor; on a hit, split the paragraph's markup on the
anchor and rejoin it around a highlight span, then restore the saved original
markup when the timeout fires; otherwise raise the not-found alert. -/
def handleScrollToQuoteDirect (paras : List String) (anchor : String) : DirectRun :=
  let ca := jsTrim anchor
  match findPara ca paras with
  | some (i, p) =>
      let parts := jsSplit p ca
      let hl := if parts.length > 1 then joinWith (spanWrapDirect ca) parts else p
      ⟨.found, paras.set i hl, paras.set i p⟩
  | none => ⟨.notFoundAlert, paras, paras⟩

/-- A rendered inline node in the iframe variant: plain text or the
`smartread-highlight` span. -/
inductive RNode where
  | txt (s : String)
  | mark (s : String)
deriving DecidableEq

/-- Visible text of a rendered inline node. -/
def rnText : RNode → String
  | .txt s => s
  | .mark s => s

/-- Visible text of one block. -/
def blockText (ns : List RNode) : String := joinWith "" (ns.map rnText)

/-- A run of the iframe locator over the blocks of text nodes. -/
structure IframeRun where
  outcome : LocOutcome
  during : List (List RNode)
  after : List (List RNode)
deriving DecidableEq

/-- The untouched rendering: every text node as-is. -/
def initRender (blocks : List (List String)) : List (List RNode) :=
  blocks.map (fun b => b.map RNode.txt)

/-- Index of the first block one of whose text nodes contains the query
(the `TreeWalker` over text nodes; the hit's `parentElement` is the block). -/
def findBlock (ca : String) : List (List String) → Option Nat
  | [] => none
  | b :: rest =>
      if b.any (fun s => jsIncludes s ca) then some 0
      else (findBlock ca rest).map (fun i => i + 1)

/-- The iframe variant's `handleScrollToQuote`: walk the text nodes for the
trimmed anchor; on a hit, replace the first occurrence in the parent's markup
by the highlight span (the innerHTML assignment re-parses into text, span,
text), and when the timeout fires replace the span by a plain text node
holding the anchor; otherwise fall back to `window.find`, alerting when that
also fails.  The native-selection branch leaves the rendering untouched in
this model (its range wrap and unwrap are also text-preserving). -/
def handleScrollToQuoteIframe (blocks : List (List String)) (anchor : String)
    (nativeFind : Option (String → Bool)) : IframeRun :=
  if anchor = "" then ⟨.noop, initRender blocks, initRender blocks⟩
  else
    let ca := jsTrim anchor
    if ca = "" then ⟨.noop, initRender blocks, initRender blocks⟩
    else
      match findBlock ca blocks with
      | some i =>
          let b := (blocks.get? i).getD []
          match splitFirstL ca.data (joinWith "" b).data with
          | some (pre, post) =>
              ⟨.found,
               (initRender blocks).set i [.txt ⟨pre⟩, .mark ca, .txt ⟨post⟩],
               (initRender blocks).set i [.txt ⟨pre⟩, .txt ca, .txt ⟨post⟩]⟩
          | none => ⟨.found, initRender blocks, initRender blocks⟩
      | none =>
          match nativeFind with
          | some nf =>
              if nf ca then ⟨.nativeSel, initRender blocks, initRender blocks⟩
              else ⟨.notFoundAlert, initRender blocks, initRender blocks⟩
          | none => ⟨.noop, initRender blocks, initRender blocks⟩

/-! ## Selection capture -/

/-- The transient selection-capture state of the host. -/
structure SelCapture where
  contextMenuPos : Option (Int × Int)
  selectedTextData : Option (String × String)
deriving DecidableEq

/-- Result of a context-menu event: the updated state, and whether the
default browser menu was suppressed (`e.preventDefault()`). -/
structure SelResult where
  state : SelCapture
  defaultSuppressed : Bool
deriving DecidableEq

/-- The direct-DOM variant's `handleContextMenu`: always suppress the default
menu; on an empty (trimmed) selection clear only the menu position; otherwise
capture the trimmed selection and the nearest containing element's text
(`anchorNode.parentElement.textContent || ""`), untruncated. -/
def handleContextMenu (s : SelCapture) (selection : String)
    (parentText : Option String) (pos : Int × Int) : SelResult :=
  if jsTrim selection = "" then ⟨{ s with contextMenuPos := none }, true⟩
  else
    ⟨{ contextMenuPos := some pos,
       selectedTextData := some (jsTrim selection, parentText.getD "") }, true⟩

/-- The iframe variant's context truncation: the first 200 characters with an
ellipsis appended when longer than 200. -/
def truncateContext (t : String) : String :=
  if t.length > 200 then (⟨t.data.take 200⟩ : String) ++ "..." else t

/-- The iframe variant's `handleIframeContextMenu`: as the direct variant,
but the context is truncated, and `""` is used when the selection has no
anchor node. -/
def handleIframeContextMenu (s : SelCapture) (selection : String)
    (parentText : Option String) (pos : Int × Int) : SelResult :=
  let word := jsTrim selection
  if word ≠ "" then
    let context := match parentText with
      | some t => truncateContext t
      | none => ""
    ⟨{ contextMenuPos := some pos, selectedTextData := some (word, context) }, true⟩
  else ⟨{ s with contextMenuPos := none }, true⟩

/-! ## Host loading state and the chat/image triggers -/

/-- `LoadingState` from `types.ts`. -/
inductive LoadingState where
  | IDLE
  | ANALYZING
  | DEFINING
  | CHATTING
  | IMAGE_ANALYZING
deriving DecidableEq

/-- `ChatMessage.role` values. -/
inductive ChatRole where
  | user
  | model
deriving DecidableEq

/-- `ChatMessage` from `types.ts` (timestamps and ids from `Date.now()`). -/
structure ChatMessage where
  id : String
  role : ChatRole
  text : String
  timestamp : Nat
deriving DecidableEq

/-- The chat-relevant state of the host (identical in both variants). -/
structure ChatPanel where
  loadingState : LoadingState
  chatInput : String
  chatHistory : List ChatMessage
  articleText : String
deriving DecidableEq

/-- A request issued to the `chatWithGemini` collaborator. -/
structure ChatRequest where
  history : List ChatMessage
  newMessage : String
  article : String
deriving DecidableEq

/-- The synchronous prefix of `handleSendMessage`, up to the collaborator
call: guarded only by a nonempty (trimmed) input, it appends the user
message, clears the input, marks the state `CHATTING` and issues the request. -/
def handleSendMessageStart (now : Nat) (s : ChatPanel) :
    Option (ChatPanel × ChatRequest) :=
  if jsTrim s.chatInput = "" then none
  else
    let userMsg : ChatMessage := ⟨toString now, .user, s.chatInput, now⟩
    let newHistory := s.chatHistory ++ [userMsg]
    some ({ s with
              chatHistory := newHistory
              chatInput := ""
              loadingState := .CHATTING },
          ⟨newHistory, s.chatInput, s.articleText⟩)

/-- A chat send triggered by the Enter key
(`onKeyDown={(e) => e.key === 'Enter' && handleSendMessage()}`): no
loading-state guard. -/
def sendViaEnter (now : Nat) (s : ChatPanel) : Option (ChatPanel × ChatRequest) :=
  handleSendMessageStart now s

/-- A chat send triggered by the send button, which is
`disabled={loadingState === LoadingState.CHATTING}`. -/
def sendViaButton (now : Nat) (s : ChatPanel) : Option (ChatPanel × ChatRequest) :=
  if s.loadingState = .CHATTING then none else handleSendMessageStart now s

/-- The image-analysis-relevant state of the host. -/
structure ImagePanel where
  loadingState : LoadingState
  selectedImage : Option String
  imagePrompt : String
deriving DecidableEq

/-- The synchronous prefix of `handleAnalyzeImage`: requires a selected
image. -/
def handleAnalyzeImageStart (s : ImagePanel) : Option (String × String) :=
  match s.selectedImage with
  | none => none
  | some img => some (img, s.imagePrompt)

/-- Image analysis triggered by its button, which is
`disabled={loadingState === LoadingState.IMAGE_ANALYZING}`. -/
def analyzeImageViaButton (s : ImagePanel) : Option (String × String) :=
  if s.loadingState = .IMAGE_ANALYZING then none else handleAnalyzeImageStart s

/-! ## Result records from `types.ts` -/

/-- `KeyPoint` from `types.ts`. -/
structure KeyPoint where
  id : String
  title : String
  description : String
  quoteAnchor : String
deriving DecidableEq

/-- `AnalysisResult` from `types.ts`. -/
structure AnalysisResult where
  summary : String
  keyPoints : List KeyPoint
deriving DecidableEq

/-- `DictionaryResult` from `types.ts`. -/
structure DictionaryResult where
  word : String
  englishDefinition : String
  chineseDefinition : String
  contextExplanation : String
deriving DecidableEq

/-! ## Document serialization (`outerHTML`) -/

/-- `name="value"` attribute serialization. -/
def serializeAttrs : List (String × String) → String
  | [] => ""
  | (k, v) :: rest => " " ++ k ++ "=\"" ++ v ++ "\"" ++ serializeAttrs rest

mutual
/-- `outerHTML` of one node. -/
def serializeN : Node → String
  | .elem tg a cs => "<" ++ tg ++ serializeAttrs a ++ ">" ++ serializeL cs ++ "</" ++ tg ++ ">"
  | .text s => s
/-- `outerHTML` of a node list. -/
def serializeL : NodeList → String
  | .nil => ""
  | .cons n ns => serializeN n ++ serializeL ns
end

/-- The CSS injected into the iframe document for highlighting and base
styles. -/
def styleCss : String :=
  "\n        .smartread-highlight \x7b background-color: #fef08a !important; color: #000 !important; transition: background-color 1s; border-radius: 2px; \x7d\n        body \x7b cursor: default; \x7d\n        /* Hide common nuisance elements like cookie banners or ads */\n        #onetrust-banner-sdk, .ads, .ad-container, [id*=\"cookie\"], [class*=\"popup\"] \x7b display: none !important; \x7d\n      "

/-- Append a node at the end of a node list. -/
def appendL : NodeList → Node → NodeList
  | .nil, x => .cons x .nil
  | .cons n ns, x => .cons n (appendL ns x)

mutual
/-- Append a node to the children of the first `head` element
(`doc.head.appendChild`). -/
def appendToHeadN (x : Node) : Node → Node × Bool
  | .elem tg a cs =>
      if tg = "head" then (.elem tg a (appendL cs x), true)
      else
        let r := appendToHeadL x cs
        (.elem tg a r.1, r.2)
  | .text s => (.text s, false)
def appendToHeadL (x : Node) : NodeList → NodeList × Bool
  | .nil => (.nil, false)
  | .cons n ns =>
      let rn := appendToHeadN x n
      if rn.2 then (.cons rn.1 ns, true)
      else
        let rns := appendToHeadL x ns
        (.cons n rns.1, rns.2)
end

/-- Inject the style element into the document's head (no-op when the parsed
document has no `head`, which `DOMParser('text/html')` never produces). -/
def injectStyle (d : NodeList) : NodeList :=
  (appendToHeadL (.elem "style" [] (.cons (.text styleCss) .nil)) d).1

/-! ## The article-load handlers -/

/-- The environment a load runs in: the proxied fetch of the raw HTML (both
proxy strategies folded into one fallible outcome), the `DOMParser`, and the
`analyzeArticle` collaborator. -/
structure FetchEnv where
  fetched : Except String String
  parse : String → NodeList
  analyze : String → Except String AnalysisResult

/-- The load-relevant state of the direct-DOM variant. -/
structure DirectApp where
  loadingState : LoadingState
  urlInput : String
  articleContent : String
  analysis : Option AnalysisResult
  chatHistory : List ChatMessage
deriving DecidableEq

/-- The load-relevant state of the iframe variant. -/
structure IframeApp where
  loadingState : LoadingState
  urlInput : String
  articleText : String
  iframeHtml : String
  analysis : Option AnalysisResult
  chatHistory : List ChatMessage
  dictionary : Option DictionaryResult
deriving DecidableEq

/-- The reset prefix of the direct variant's `handleLoadArticle`: analysis,
chat history and article content are cleared before the fetch. -/
def loadResetDirect (s : DirectApp) : DirectApp :=
  { s with
      loadingState := .ANALYZING
      analysis := none
      chatHistory := []
      articleContent := "" }

/-- The catch-all error text of the direct variant. -/
def directErrorText (msg : String) : String :=
  "Unable to automatically extract content from this URL.\n\nError details: " ++ msg ++
  "\n\nMost websites block automated access, or the content is rendered dynamically with JavaScript which cannot be parsed by this simple reader."

/-- The `try`/`catch` body of the direct variant's `handleLoadArticle`,
started from the already-reset state: fetch (both proxies folded into
`env.fetched`), reject bodies shorter than 50 characters, sanitize, extract,
analyze; every thrown error lands in the catch block, which writes the error
text into the article pane. -/
def directLoadRun (env : FetchEnv) (s0 : DirectApp) : DirectApp :=
  match env.fetched with
  | .error msg => { s0 with articleContent := directErrorText msg }
  | .ok html =>
    if html.length < 50 then
      { s0 with articleContent := directErrorText "Retrieved content is empty or too short." }
    else
      match extractDirect (sanitizeDirect (env.parse html)) with
      | .error msg => { s0 with articleContent := directErrorText msg }
      | .ok text =>
          match env.analyze text with
          | .error msg => { s0 with articleContent := directErrorText msg }
          | .ok result =>
              { s0 with
                  articleContent := text
                  analysis := some result }

/-- The direct variant's `handleLoadArticle`, one whole invocation: early
return on an empty URL input; otherwise reset, run the `try`/`catch` body,
and let `finally` restore `IDLE`. -/
def handleLoadArticleDirect (env : FetchEnv) (s : DirectApp) : DirectApp :=
  if s.urlInput = "" then s
  else { directLoadRun env (loadResetDirect s) with loadingState := .IDLE }

/-- The reset prefix of the iframe variant's `handleLoadArticle`: analysis,
chat history, article text, rendered iframe HTML and the dictionary popup
are all cleared before the fetch. -/
def loadResetIframe (s : IframeApp) : IframeApp :=
  { s with
      loadingState := .ANALYZING
      analysis := none
      chatHistory := []
      articleText := ""
      iframeHtml := ""
      dictionary := none }

/-- The iframe variant's catch-all error markup. -/
def iframeErrorHtml (msg : String) : String :=
  "<div style=\"padding: 20px; font-family: sans-serif; text-align: center; color: #666;\">\n        <h2>Oops! Could not load website.</h2>\n        <p>" ++ msg ++ "</p>\n        <p>Some websites block proxy access. Try a simpler blog URL.</p>\n      </div>"

/-- The `try`/`catch` body of the iframe variant's `handleLoadArticle`,
started from the already-reset state: fetch, reject bodies shorter than 50
characters, sanitize, rewrite URLs against the typed URL, inject the style,
publish the serialized document to the iframe, extract the whitespace-
normalized text, analyze; a failure after the iframe HTML was published (too
little text, or the analyzer throwing) still lands in the catch block, which
overwrites the iframe with the error markup. -/
def iframeLoadRun (env : FetchEnv) (s0 : IframeApp) : IframeApp :=
  match env.fetched with
  | .error msg => { s0 with iframeHtml := iframeErrorHtml msg }
  | .ok html =>
    if html.length < 50 then
      { s0 with iframeHtml := iframeErrorHtml "Retrieved content is empty or too short." }
    else
      match extractIframe (injectStyle (rewriteUrls (sanitizeIframe (env.parse html)) s0.urlInput)) with
      | .error msg => { s0 with iframeHtml := iframeErrorHtml msg }
      | .ok text =>
          match env.analyze text with
          | .error msg =>
              { s0 with
                  iframeHtml := iframeErrorHtml msg
                  articleText := text }
          | .ok result =>
              { s0 with
                  iframeHtml :=
                    serializeL (injectStyle (rewriteUrls (sanitizeIframe (env.parse html)) s0.urlInput))
                  articleText := text
                  analysis := some result }

/-- The iframe variant's `handleLoadArticle`, one whole invocation: early
return on an empty URL input; otherwise reset, run the `try`/`catch` body,
and let `finally` restore `IDLE`. -/
def handleLoadArticleIframe (env : FetchEnv) (s : IframeApp) : IframeApp :=
  if s.urlInput = "" then s
  else { iframeLoadRun env (loadResetIframe s) with loadingState := .IDLE }

/-! ## Support lemmas for the locator claims -/

theorem data_append (s t : String) : (s ++ t).data = s.data ++ t.data := by
  cases s; cases t; rfl

/-- Trimming yields a contiguous part of the original characters. -/
theorem trimChars_within (l : List Char) : trimChars l <:+: l := by
  refine ⟨l.takeWhile wsChar, ((l.dropWhile wsChar).reverse.takeWhile wsChar).reverse, ?_⟩
  have h1 : l.takeWhile wsChar ++ l.dropWhile wsChar = l :=
    List.takeWhile_append_dropWhile wsChar l
  have h2 : (l.dropWhile wsChar).reverse.takeWhile wsChar ++
      (l.dropWhile wsChar).reverse.dropWhile wsChar = (l.dropWhile wsChar).reverse :=
    List.takeWhile_append_dropWhile wsChar (l.dropWhile wsChar).reverse
  have h3 : l.dropWhile wsChar =
      trimChars l ++ ((l.dropWhile wsChar).reverse.takeWhile wsChar).reverse := by
    have h4 := congrArg List.reverse h2
    rw [List.reverse_append] at h4
    calc l.dropWhile wsChar = (l.dropWhile wsChar).reverse.reverse := by
          rw [List.reverse_reverse]
      _ = _ := h4.symm
  calc l.takeWhile wsChar ++ trimChars l ++
        ((l.dropWhile wsChar).reverse.takeWhile wsChar).reverse
      = l.takeWhile wsChar ++ (trimChars l ++
        ((l.dropWhile wsChar).reverse.takeWhile wsChar).reverse) := by
        rw [List.append_assoc]
    _ = l.takeWhile wsChar ++ l.dropWhile wsChar := by rw [← h3]
    _ = l := h1

/-- A string containing a query also contains the trimmed query. -/
theorem jsIncludes_jsTrim (p a : String) (h : jsIncludes p a = true) :
    jsIncludes p (jsTrim a) = true := by
  simp only [jsIncludes, decide_eq_true_eq] at h ⊢
  exact (trimChars_within a.data).trans h

theorem findPara_get (ca : String) :
    ∀ (l : List String) (i : Nat) (p : String), findPara ca l = some (i, p) →
      l.get? i = some p ∧ jsIncludes p ca = true := by
  intro l
  induction l with
  | nil => intro i p h; simp [findPara] at h
  | cons q rest ih =>
      intro i p h
      simp only [findPara] at h
      by_cases hq : jsIncludes q ca = true
      · rw [if_pos hq] at h
        injection h with h'
        injection h' with hi hp
        subst hi; subst hp
        exact ⟨rfl, hq⟩
      · rw [if_neg hq, Option.map_eq_some'] at h
        obtain ⟨⟨j, r⟩, hjr, hmk⟩ := h
        injection hmk with hji hrp
        subst hji; subst hrp
        exact ih j r hjr

theorem findPara_isSome (ca : String) :
    ∀ l : List String, (∃ p ∈ l, jsIncludes p ca = true) →
      (findPara ca l).isSome = true := by
  intro l
  induction l with
  | nil => rintro ⟨p, hp, _⟩; simp at hp
  | cons q rest ih =>
      rintro ⟨p, hp, hinc⟩
      simp only [findPara]
      by_cases hq : jsIncludes q ca = true
      · rw [if_pos hq]; rfl
      · rw [if_neg hq]
        rcases List.mem_cons.mp hp with h | h
        · subst h; exact absurd hinc hq
        · have := ih ⟨p, h, hinc⟩
          cases hf : findPara ca rest with
          | none => rw [hf] at this; simp at this
          | some r => simp [hf]

theorem findPara_none (ca : String) :
    ∀ l : List String, (∀ p ∈ l, jsIncludes p ca = false) →
      findPara ca l = none := by
  intro l
  induction l with
  | nil => intro _; rfl
  | cons q rest ih =>
      intro h
      simp only [findPara]
      rw [if_neg (by simp [h q (List.mem_cons_self q rest)]), ih]
      · rfl
      · exact fun p hp => h p (List.mem_cons_of_mem q hp)

theorem set_get?_self {α : Type} :
    ∀ (l : List α) (i : Nat) (v : α), l.get? i = some v → l.set i v = l
  | [], _, _, h => by simp at h
  | x :: xs, 0, v, h => by
      simp only [List.get?] at h
      injection h with h'
      simp [h']
  | x :: xs, i + 1, v, h => by
      simp only [List.get?] at h
      simp [set_get?_self xs i v h]

theorem findBlock_get (ca : String) :
    ∀ (l : List (List String)) (i : Nat), findBlock ca l = some i →
      ∃ b, l.get? i = some b ∧ b.any (fun s => jsIncludes s ca) = true := by
  intro l
  induction l with
  | nil => intro i h; simp [findBlock] at h
  | cons b rest ih =>
      intro i h
      simp only [findBlock] at h
      by_cases hb : b.any (fun s => jsIncludes s ca) = true
      · rw [if_pos hb] at h
        injection h with h'
        subst h'
        exact ⟨b, rfl, hb⟩
      · rw [if_neg hb, Option.map_eq_some'] at h
        obtain ⟨j, hj, hmk⟩ := h
        subst hmk
        obtain ⟨b', hb', hany⟩ := ih j hj
        exact ⟨b', hb', hany⟩

theorem findBlock_isSome (ca : String) :
    ∀ l : List (List String), (∃ b ∈ l, ∃ s ∈ b, jsIncludes s ca = true) →
      (findBlock ca l).isSome = true := by
  intro l
  induction l with
  | nil => rintro ⟨b, hb, _⟩; simp at hb
  | cons c rest ih =>
      rintro ⟨b, hb, s, hs, hinc⟩
      simp only [findBlock]
      by_cases hc : c.any (fun x => jsIncludes x ca) = true
      · rw [if_pos hc]; rfl
      · rw [if_neg hc]
        rcases List.mem_cons.mp hb with h | h
        · subst h
          exact absurd (List.any_eq_true.mpr ⟨s, hs, hinc⟩) hc
        · have := ih ⟨b, h, s, hs, hinc⟩
          cases hf : findBlock ca rest with
          | none => rw [hf] at this; simp at this
          | some r => simp [hf]

theorem findBlock_none (ca : String) :
    ∀ l : List (List String), (∀ b ∈ l, ∀ s ∈ b, jsIncludes s ca = false) →
      findBlock ca l = none := by
  intro l
  induction l with
  | nil => intro _; rfl
  | cons c rest ih =>
      intro h
      simp only [findBlock]
      have hc : c.any (fun x => jsIncludes x ca) = false := by
        rw [List.any_eq_false]
        intro s hs
        simp [h c (List.mem_cons_self c rest) s hs]
      rw [if_neg (by simp [hc]), ih]
      · rfl
      · exact fun b hb => h b (List.mem_cons_of_mem c hb)

theorem list_map_set {α β : Type} (f : α → β) :
    ∀ (l : List α) (i : Nat) (v : α),
      (l.set i v).map f = (l.map f).set i (f v)
  | [], _, _ => by simp
  | x :: xs, 0, v => by simp
  | x :: xs, i + 1, v => by simp [list_map_set f xs i v]

theorem mem_joinWith_sub (s : String) :
    ∀ b : List String, s ∈ b → s.data <:+: (joinWith "" b).data := by
  intro b
  induction b with
  | nil => intro h; simp at h
  | cons x rest ih =>
      intro h
      cases rest with
      | nil =>
          rcases List.mem_cons.mp h with h | h
          · subst h; exact ⟨[], [], by simp [joinWith]⟩
          · simp at h
      | cons y t =>
          rcases List.mem_cons.mp h with h | h
          · subst h
            refine ⟨[], (joinWith "" (y :: t)).data, ?_⟩
            simp [joinWith, data_append]
          · obtain ⟨u, v, huv⟩ := ih h
            refine ⟨x.data ++ u, v, ?_⟩
            have : (joinWith "" (x :: y :: t)).data =
                x.data ++ (joinWith "" (y :: t)).data := by
              simp [joinWith, data_append]
            rw [this, ← huv]
            simp [List.append_assoc]

theorem blockText_txt (b : List String) :
    blockText (b.map RNode.txt) = joinWith "" b := by
  unfold blockText
  rw [List.map_map]
  have h : rnText ∘ RNode.txt = id := rfl
  rw [h, List.map_id]

theorem initRender_texts (blocks : List (List String)) :
    (initRender blocks).map blockText = blocks.map (joinWith "") := by
  unfold initRender
  rw [List.map_map]
  have h : (blockText ∘ fun b => List.map RNode.txt b) = joinWith "" := by
    funext b
    exact blockText_txt b
  rw [h]

/-! ## The claims -/

/-- A document holding an `object` and an `embed` element, with a `script`
inside the `object`. -/
def c1doc : NodeList :=
  .cons (.elem "object" [] (.cons (.elem "script" [] .nil) .nil))
    (.cons (.elem "embed" [] .nil) .nil)

/-- C1, counterexample: the direct-DOM variant's removal list has no
`object` and no `embed` entry, so a document carrying both keeps both after
its sanitizer pass (only the nested `script` is removed); the claim's
"in both implementation variants" fails. -/
theorem c1_direct_keeps_object_embed :
    containsTagL "object" c1doc = true ∧
    containsTagL "embed" c1doc = true ∧
    containsTagL "object" (sanitizeDirect c1doc) = true ∧
    containsTagL "embed" (sanitizeDirect c1doc) = true := by decide

/-- C1, amended: the iframe variant's sanitizer removes every `script`,
`iframe`, `object` and `embed` element from every document; the direct-DOM
variant removes exactly its `irrelevantTags` list (script, style, noscript,
iframe, svg, nav, footer, header, aside, form, ads, button) — which does not
include `object` or `embed`. -/
theorem c1_sanitizer_amended (t : String) (d : NodeList) :
    (t ∈ ["script", "iframe", "object", "embed"] →
      containsTagL t (sanitizeIframe d) = false) ∧
    (t ∈ irrelevantTags →
      containsTagL t (sanitizeDirect d) = false) := by
  constructor
  · intro ht
    unfold sanitizeIframe
    exact removeTags_noL _ t ht d
  · intro ht
    unfold sanitizeDirect
    exact foldl_removeTags_mem t irrelevantTags ht d

/-- C1, witness for the amended theorem at a concrete tag and document. -/
theorem c1_sanitizer_amended_witness :
    containsTagL "object" (sanitizeIframe c1doc) = false ∧
    containsTagL "script" (sanitizeDirect c1doc) = false :=
  ⟨(c1_sanitizer_amended "object" c1doc).1 (by decide),
   (c1_sanitizer_amended "script" c1doc).2 (by decide)⟩

/-- C3: whenever the assembled article text falls below the variant's
threshold (200 characters for the direct block-collection extractor, 100 for
the iframe whole-region extractor), the extractor returns the corresponding
too-short error instead of the text. -/
theorem c3_extract_too_short (d e : NodeList)
    (h1 : (directArticleText d).length < 200)
    (h2 : (iframeArticleText e).length < 100) :
    extractDirect d = Except.error directTooShortMsg ∧
    extractIframe e = Except.error iframeTooShortMsg := by
  constructor
  · unfold extractDirect
    rw [if_pos h1]
  · unfold extractIframe
    rw [if_pos h2]

/-- C3, witness: the empty document is below both thresholds. -/
theorem c3_extract_too_short_witness :
    extractDirect NodeList.nil = Except.error directTooShortMsg ∧
    extractIframe NodeList.nil = Except.error iframeTooShortMsg :=
  c3_extract_too_short NodeList.nil NodeList.nil (by decide) (by decide)

/-- The spec's C5 example document:
`<article><p>Hello world. The sky is blue today.</p></article>`. -/
def c5doc : NodeList :=
  .cons (.elem "article" []
    (.cons (.elem "p" [] (.cons (.text "Hello world. The sky is blue today.") .nil)) .nil))
    .nil

/-- C5, counterexample: the example paragraph has 35 characters, which the
`length > 40` noise filter discards, so the extractor assembles the empty
string and fails with the too-short error — not the claimed ArticleText
"Hello world. The sky is blue today.". -/
theorem c5_example_paragraph_filtered :
    ("Hello world. The sky is blue today." : String).length = 35 ∧
    collectedTexts c5doc = ["Hello world. The sky is blue today."] ∧
    textBlocks c5doc = [] ∧
    extractDirect c5doc = Except.error directTooShortMsg :=
  ⟨by decide, by decide, by decide, rfl⟩

/-- C5, amended: every surviving block is the trim of a collected block text
and is strictly longer than 40 characters; on the spec's example document the
single 35-character paragraph is discarded, so extraction fails with the
too-short error. -/
theorem c5_extractor_amended (d : NodeList) (b : String) (hb : b ∈ textBlocks d) :
    40 < b.length ∧ (∃ t ∈ collectedTexts d, b = jsTrim t) ∧
    directArticleText d = joinWith "\n\n" (textBlocks d) ∧
    extractDirect c5doc = Except.error directTooShortMsg := by
  unfold textBlocks at hb
  rw [List.mem_filter] at hb
  obtain ⟨hmem, hlen⟩ := hb
  rw [List.mem_map] at hmem
  obtain ⟨t, ht, hbt⟩ := hmem
  refine ⟨by simpa using hlen, ⟨t, ht, hbt.symm⟩, rfl, rfl⟩

/-- A document with one long paragraph, used as the C5 witness input. -/
def c5wdoc : NodeList :=
  .cons (.elem "p" []
    (.cons (.text "This single paragraph is comfortably longer than forty characters.") .nil))
    .nil

/-- C5, witness for the amended theorem at a concrete document and block. -/
theorem c5_extractor_amended_witness :
    40 < ("This single paragraph is comfortably longer than forty characters." : String).length ∧
    (∃ t ∈ collectedTexts c5wdoc,
      "This single paragraph is comfortably longer than forty characters." = jsTrim t) ∧
    directArticleText c5wdoc = joinWith "\n\n" (textBlocks c5wdoc) ∧
    extractDirect c5doc = Except.error directTooShortMsg :=
  c5_extractor_amended c5wdoc
    "This single paragraph is comfortably longer than forty characters." (by decide)

/-- C8, counterexample: a chat send triggered by the Enter key has no
loading-state guard, so with the state already `CHATTING` a second chat
request still starts; the claimed "a new trigger of that class is not
started" fails. -/
theorem c8_enter_bypasses_guard :
    (sendViaEnter 0 ⟨LoadingState.CHATTING, "hi", [], "art"⟩).isSome = true ∧
    (sendViaButton 0 ⟨LoadingState.CHATTING, "hi", [], "art"⟩).isSome = false := by
  decide

/-- C8, amended: the button triggers are guarded — the send button is
disabled while `CHATTING` and the image button while `IMAGE_ANALYZING`, and
an empty input never starts a send — but the Enter-key path bypasses the
chat guard, so overlapping chat sends are possible. -/
theorem c8_state_machine_amended (now : Nat) (s : ChatPanel) (t : ImagePanel) :
    (s.loadingState = LoadingState.CHATTING → sendViaButton now s = none) ∧
    (t.loadingState = LoadingState.IMAGE_ANALYZING → analyzeImageViaButton t = none) ∧
    (jsTrim s.chatInput = "" → sendViaEnter now s = none) ∧
    (s.loadingState = LoadingState.CHATTING → jsTrim s.chatInput ≠ "" →
      (sendViaEnter now s).isSome = true ∧
      ((sendViaEnter now s).map (fun r => r.1.loadingState)) = some LoadingState.CHATTING) := by
  refine ⟨?_, ?_, ?_, ?_⟩
  · intro h
    unfold sendViaButton
    rw [if_pos h]
  · intro h
    unfold analyzeImageViaButton
    rw [if_pos h]
  · intro h
    unfold sendViaEnter handleSendMessageStart
    rw [if_pos h]
  · intro _ hne
    unfold sendViaEnter handleSendMessageStart
    rw [if_neg hne]
    exact ⟨rfl, rfl⟩

/-- C8, witness for the amended theorem at concrete panel states. -/
theorem c8_state_machine_amended_witness :
    sendViaButton 0 ⟨LoadingState.CHATTING, "hi", [], "a"⟩ = none ∧
    analyzeImageViaButton ⟨LoadingState.IMAGE_ANALYZING, some "img", "p"⟩ = none ∧
    sendViaEnter 0 ⟨LoadingState.IDLE, "  ", [], "a"⟩ = none ∧
    (sendViaEnter 0 ⟨LoadingState.CHATTING, "hi", [], "a"⟩).isSome = true :=
  ⟨(c8_state_machine_amended 0 ⟨LoadingState.CHATTING, "hi", [], "a"⟩
      ⟨LoadingState.IMAGE_ANALYZING, some "img", "p"⟩).1 rfl,
   (c8_state_machine_amended 0 ⟨LoadingState.CHATTING, "hi", [], "a"⟩
      ⟨LoadingState.IMAGE_ANALYZING, some "img", "p"⟩).2.1 rfl,
   (c8_state_machine_amended 0 ⟨LoadingState.IDLE, "  ", [], "a"⟩
      ⟨LoadingState.IMAGE_ANALYZING, some "img", "p"⟩).2.2.1 (by decide),
   ((c8_state_machine_amended 0 ⟨LoadingState.CHATTING, "hi", [], "a"⟩
      ⟨LoadingState.IMAGE_ANALYZING, some "img", "p"⟩).2.2.2 rfl (by decide)).1⟩

/-- C9: the URL rewriter is idempotent — a second run over its own output
with the same base changes nothing (already-absolute URLs resolve to
themselves, `srcset` is already removed, `target` is already `_blank`). -/
theorem c9_rewriter_idem (d : NodeList) (base : String) :
    rewriteUrls (rewriteUrls d base) base = rewriteUrls d base := by
  rw [rewriteUrls_eq_mapAttrs, rewriteUrls_eq_mapAttrs, mapAttrsL_comp]
  exact mapAttrsL_congr _ _ (fun t a => rewriteAttrs_idem base t a) d

/-- C2: an anchor that is verbatim contained in a single paragraph (direct
variant) and in a single text node (iframe variant) is found by the locator,
and once the 3000 ms timeout has fired the visible text of the rendering is
the text it had before highlighting — exactly the original paragraphs in the
direct variant, and content-equal blocks in the iframe variant. -/
theorem c2_locator_roundtrip (paras : List String) (blocks : List (List String))
    (anchor : String) (nf : Option (String → Bool))
    (hanc : jsTrim anchor ≠ "")
    (hp : ∃ p ∈ paras, jsIncludes p anchor = true)
    (hb : ∃ b ∈ blocks, ∃ s ∈ b, jsIncludes s anchor = true) :
    (handleScrollToQuoteDirect paras anchor).outcome = LocOutcome.found ∧
    (handleScrollToQuoteDirect paras anchor).after = paras ∧
    (handleScrollToQuoteIframe blocks anchor nf).outcome = LocOutcome.found ∧
    (handleScrollToQuoteIframe blocks anchor nf).after.map blockText =
      blocks.map (joinWith "") := by
  obtain ⟨p, hpmem, hpinc⟩ := hp
  have hpinc' : jsIncludes p (jsTrim anchor) = true := jsIncludes_jsTrim p anchor hpinc
  have hsome := findPara_isSome (jsTrim anchor) paras ⟨p, hpmem, hpinc'⟩
  have hdir : (handleScrollToQuoteDirect paras anchor).outcome = LocOutcome.found ∧
      (handleScrollToQuoteDirect paras anchor).after = paras := by
    cases hfp : findPara (jsTrim anchor) paras with
    | none => rw [hfp] at hsome; simp at hsome
    | some r =>
        obtain ⟨i, q⟩ := r
        obtain ⟨hget, _⟩ := findPara_get (jsTrim anchor) paras i q hfp
        simp only [handleScrollToQuoteDirect]
        rw [hfp]
        exact ⟨rfl, set_get?_self paras i q hget⟩
  have hanch : anchor ≠ "" := by
    intro h0
    apply hanc
    rw [h0]
    rfl
  obtain ⟨b, hbmem, s, hsmem, hsinc⟩ := hb
  have hsinc' : jsIncludes s (jsTrim anchor) = true := jsIncludes_jsTrim s anchor hsinc
  have hbsome := findBlock_isSome (jsTrim anchor) blocks ⟨b, hbmem, s, hsmem, hsinc'⟩
  have hifr : (handleScrollToQuoteIframe blocks anchor nf).outcome = LocOutcome.found ∧
      (handleScrollToQuoteIframe blocks anchor nf).after.map blockText =
        blocks.map (joinWith "") := by
    cases hfb : findBlock (jsTrim anchor) blocks with
    | none => rw [hfb] at hbsome; simp at hbsome
    | some i =>
        obtain ⟨b', hget', hany⟩ := findBlock_get (jsTrim anchor) blocks i hfb
        obtain ⟨s', hs'mem, hs'inc⟩ := List.any_eq_true.mp hany
        have hsub : (jsTrim anchor).data <:+: (joinWith "" b').data := by
          have h1 : (jsTrim anchor).data <:+: s'.data := by
            simpa [jsIncludes] using hs'inc
          exact h1.trans (mem_joinWith_sub s' b' hs'mem)
        have hpat : (jsTrim anchor).data ≠ [] := by
          intro hdd
          apply hanc
          calc jsTrim anchor = ⟨(jsTrim anchor).data⟩ := rfl
            _ = ⟨[]⟩ := by rw [hdd]
            _ = "" := rfl
        have hsp := splitFirstL_isSome (jsTrim anchor).data (joinWith "" b').data hsub hpat
        have hgd : (blocks.get? i).getD [] = b' := by rw [hget']; rfl
        simp only [handleScrollToQuoteIframe]
        rw [if_neg hanch, if_neg hanc, hfb]
        dsimp only
        rw [hgd]
        cases hsl : splitFirstL (jsTrim anchor).data (joinWith "" b').data with
        | none => rw [hsl] at hsp; simp at hsp
        | some pq =>
            obtain ⟨pre, post⟩ := pq
            refine ⟨rfl, ?_⟩
            show (((initRender blocks).set i
              [RNode.txt ⟨pre⟩, RNode.txt (jsTrim anchor), RNode.txt ⟨post⟩]).map blockText)
              = blocks.map (joinWith "")
            rw [list_map_set, initRender_texts]
            have hd := splitFirstL_eq (jsTrim anchor).data (joinWith "" b').data pre post hsl
            have hdata : (blockText [RNode.txt ⟨pre⟩, RNode.txt (jsTrim anchor),
                RNode.txt ⟨post⟩]).data = (joinWith "" b').data := by
              rw [hd]
              simp [blockText, joinWith, rnText, data_append]
            have hstr : blockText [RNode.txt ⟨pre⟩, RNode.txt (jsTrim anchor),
                RNode.txt ⟨post⟩] = joinWith "" b' :=
              calc blockText [RNode.txt ⟨pre⟩, RNode.txt (jsTrim anchor), RNode.txt ⟨post⟩]
                  = ⟨(blockText [RNode.txt ⟨pre⟩, RNode.txt (jsTrim anchor),
                      RNode.txt ⟨post⟩]).data⟩ := rfl
                _ = ⟨(joinWith "" b').data⟩ := by rw [hdata]
                _ = joinWith "" b' := rfl
            rw [hstr]
            apply set_get?_self
            rw [List.get?_map, hget']
            rfl
  exact ⟨hdir.1, hdir.2, hifr.1, hifr.2⟩

/-- C2, witness at a concrete anchor, paragraph list and block list. -/
theorem c2_locator_roundtrip_witness :
    (handleScrollToQuoteDirect ["here is the whole anchor text"] "anchor").outcome
        = LocOutcome.found ∧
    (handleScrollToQuoteDirect ["here is the whole anchor text"] "anchor").after
        = ["here is the whole anchor text"] ∧
    (handleScrollToQuoteIframe [["xx", "the anchor lives here"]] "anchor" none).outcome
        = LocOutcome.found ∧
    (handleScrollToQuoteIframe [["xx", "the anchor lives here"]] "anchor" none).after.map blockText
        = [["xx", "the anchor lives here"]].map (joinWith "") :=
  c2_locator_roundtrip ["here is the whole anchor text"] [["xx", "the anchor lives here"]]
    "anchor" none (by decide) (by decide) (by decide)

/-- C6, counterexample: matching is done on the trimmed anchor, so the query
" x " — which no element text contains verbatim — is still reported found in
"axbc" by both variants instead of raising the not-found notice; and when
`window.find` is unavailable the iframe variant falls through silently with
no notice at all. -/
theorem c6_trimmed_match_not_reported :
    jsIncludes "axbc" " x " = false ∧
    (handleScrollToQuoteDirect ["axbc"] " x ").outcome = LocOutcome.found ∧
    (handleScrollToQuoteIframe [["axbc"]] " x " (some (fun _ => false))).outcome
        = LocOutcome.found ∧
    (handleScrollToQuoteIframe [["axbc"]] "zq" none).outcome = LocOutcome.noop := by
  refine ⟨by decide, by decide, ?_, ?_⟩ <;> rfl

/-- C6, amended: when even the trimmed anchor occurs in no paragraph (direct
variant) or no text node (iframe variant), and the native `window.find`
fallback — when available — also fails, the locator alerts and leaves the
rendering unchanged; with `window.find` unavailable the iframe variant
instead no-ops silently. -/
theorem c6_not_found_amended (paras : List String) (blocks : List (List String))
    (anchor : String) (nf : String → Bool)
    (hanc : anchor ≠ "") (htr : jsTrim anchor ≠ "")
    (hd : ∀ p ∈ paras, jsIncludes p (jsTrim anchor) = false)
    (hb : ∀ b ∈ blocks, ∀ s ∈ b, jsIncludes s (jsTrim anchor) = false)
    (hnf : nf (jsTrim anchor) = false) :
    (handleScrollToQuoteDirect paras anchor).outcome = LocOutcome.notFoundAlert ∧
    (handleScrollToQuoteDirect paras anchor).after = paras ∧
    (handleScrollToQuoteIframe blocks anchor (some nf)).outcome = LocOutcome.notFoundAlert ∧
    (handleScrollToQuoteIframe blocks anchor none).outcome = LocOutcome.noop := by
  have hfp := findPara_none (jsTrim anchor) paras hd
  have hfb := findBlock_none (jsTrim anchor) blocks hb
  refine ⟨?_, ?_, ?_, ?_⟩
  · simp only [handleScrollToQuoteDirect]
    rw [hfp]
  · simp only [handleScrollToQuoteDirect]
    rw [hfp]
  · simp only [handleScrollToQuoteIframe]
    rw [if_neg hanc, if_neg htr, hfb]
    simp [hnf]
  · simp only [handleScrollToQuoteIframe]
    rw [if_neg hanc, if_neg htr, hfb]

/-- C6, witness for the amended theorem at concrete inputs. -/
theorem c6_not_found_amended_witness :
    (handleScrollToQuoteDirect ["hello"] "zz").outcome = LocOutcome.notFoundAlert ∧
    (handleScrollToQuoteDirect ["hello"] "zz").after = ["hello"] ∧
    (handleScrollToQuoteIframe [["hello"]] "zz" (some (fun _ => false))).outcome
        = LocOutcome.notFoundAlert ∧
    (handleScrollToQuoteIframe [["hello"]] "zz" none).outcome = LocOutcome.noop :=
  c6_not_found_amended ["hello"] [["hello"]] "zz" (fun _ => false)
    (by decide) (by decide) (by decide) (by decide) rfl

/-- A 201-character parent text for the truncation counterexample. -/
def c7long : String := ⟨List.replicate 201 'a'⟩

set_option maxRecDepth 4096 in
/-- C7, counterexample: on an empty (all-whitespace) selection both variants
clear only the context-menu position — the previously captured
`selectedTextData` is NOT cleared, contradicting "all pending selection state
is cleared"; and the iframe context for a 201-character parent is 203
characters (200 kept plus an appended ellipsis), not 200. -/
theorem c7_state_not_cleared :
    (handleContextMenu ⟨some (1, 2), some ("w", "c")⟩ " " (some "t") (3, 4)).state.selectedTextData
        = some ("w", "c") ∧
    (handleIframeContextMenu ⟨some (1, 2), some ("w", "c")⟩ " " (some "t") (3, 4)).state.selectedTextData
        = some ("w", "c") ∧
    (truncateContext c7long).length = 203 := by
  refine ⟨rfl, rfl, by decide⟩

/-- C7, amended: an empty trimmed selection clears the menu position and
suppresses the default menu but leaves `selectedTextData` untouched; a
non-empty selection captures the trimmed string with the parent text as
context, the iframe variant keeping the first 200 characters of the context
and appending an ellipsis (203 characters total) when it is longer. -/
theorem c7_selection_amended (s : SelCapture) (sel : String) (pt : String)
    (pos : Int × Int) :
    (jsTrim sel = "" →
      (handleContextMenu s sel (some pt) pos).state.contextMenuPos = none ∧
      (handleContextMenu s sel (some pt) pos).state.selectedTextData = s.selectedTextData ∧
      (handleContextMenu s sel (some pt) pos).defaultSuppressed = true ∧
      (handleIframeContextMenu s sel (some pt) pos).state.contextMenuPos = none ∧
      (handleIframeContextMenu s sel (some pt) pos).state.selectedTextData
        = s.selectedTextData) ∧
    (jsTrim sel ≠ "" →
      (handleContextMenu s sel (some pt) pos).state.selectedTextData
        = some (jsTrim sel, pt) ∧
      (handleIframeContextMenu s sel (some pt) pos).state.selectedTextData
        = some (jsTrim sel, truncateContext pt) ∧
      (truncateContext pt).length ≤ 203 ∧
      (truncateContext pt).data.take 200 = pt.data.take 200) := by
  constructor
  · intro h
    refine ⟨?_, ?_, ?_, ?_, ?_⟩ <;>
      simp [handleContextMenu, handleIframeContextMenu, h]
  · intro h
    have h3 : ("..." : String).data.length = 3 := rfl
    refine ⟨?_, ?_, ?_, ?_⟩
    · simp [handleContextMenu, h]
    · simp [handleIframeContextMenu, h]
    · unfold truncateContext
      by_cases hl : pt.length > 200
      · rw [if_pos hl]
        show ((⟨pt.data.take 200⟩ : String) ++ "...").data.length ≤ 203
        rw [data_append, List.length_append, List.length_take, h3]
        omega
      · rw [if_neg hl]
        show pt.data.length ≤ 203
        have : ¬ pt.data.length > 200 := hl
        omega
    · unfold truncateContext
      by_cases hl : pt.length > 200
      · rw [if_pos hl]
        rw [data_append]
        have hlen2 : 200 ≤ (pt.data.take 200).length := by
          rw [List.length_take]
          have : 200 < pt.data.length := hl
          omega
        rw [List.take_append_of_le_length hlen2, List.take_take]
        simp
      · rw [if_neg hl]

/-- C7, witness for the amended theorem at concrete selections. -/
theorem c7_selection_amended_witness :
    (handleContextMenu ⟨some (1, 1), some ("w", "c")⟩ " hi " (some "ctx") (0, 0)).state.selectedTextData
        = some (jsTrim " hi ", "ctx") ∧
    (handleIframeContextMenu ⟨some (1, 1), some ("w", "c")⟩ "  " (some "ctx") (0, 0)).state.selectedTextData
        = some ("w", "c") :=
  ⟨((c7_selection_amended ⟨some (1, 1), some ("w", "c")⟩ " hi " "ctx" (0, 0)).2 (by decide)).1,
   ((c7_selection_amended ⟨some (1, 1), some ("w", "c")⟩ "  " "ctx" (0, 0)).1 (by decide)).2.2.2.2⟩

/-- The document used as the C4 witness input: `<img src="/logo.png">`. -/
def c4doc : NodeList :=
  .cons (.elem "img" [("src", "/logo.png")] .nil) .nil

/-- C4: the rewriter maps each element's attribute list through its
tag-indexed pass; for a non-empty `img src` / `link href` / `a href` the
attribute becomes the WHATWG resolution of (value, base) — `srcset` is
dropped and `a` gets `target="_blank"` — an unresolvable base passes the
original string through unchanged, and `src="/logo.png"` against
`https://example.com/post` becomes `https://example.com/logo.png`. -/
theorem c4_rewriter_resolves (d : NodeList) (base u : String) (pth : List Nat)
    (tg : String) (a : List (String × String))
    (h : attrsAt? d pth = some (tg, a)) :
    attrsAt? (rewriteUrls d base) pth = some (tg, rewriteAttrs base tg a) ∧
    (tg = "img" → getAttr "src" a = some u → u ≠ "" →
      getAttr "src" (rewriteAttrs base tg a) = some (toAbsolute base u) ∧
      getAttr "srcset" (rewriteAttrs base tg a) = none) ∧
    (tg = "link" → getAttr "href" a = some u → u ≠ "" →
      getAttr "href" (rewriteAttrs base tg a) = some (toAbsolute base u)) ∧
    (tg = "a" → getAttr "href" a = some u → u ≠ "" →
      getAttr "href" (rewriteAttrs base tg a) = some (toAbsolute base u) ∧
      getAttr "target" (rewriteAttrs base tg a) = some "_blank") ∧
    (parseBase base.data = none → toAbsolute base u = u) ∧
    toAbsolute "https://example.com/post" "/logo.png" = "https://example.com/logo.png" := by
  refine ⟨?_, ?_, ?_, ?_, ?_, by decide⟩
  · rw [rewriteUrls_eq_mapAttrs, attrsAt_mapAttrs, h]
    rfl
  · intro ht hsrc hne
    subst ht
    unfold rewriteAttrs
    rw [if_pos rfl]
    unfold imgAttrs
    rw [hsrc]
    dsimp only
    rw [if_neg hne]
    constructor
    · rw [getAttr_removeAttr_ne "srcset" "src" _ (by decide)]
      exact getAttr_setAttr_self "src" (toAbsolute base u) a
    · exact getAttr_removeAttr_self "srcset" _
  · intro ht hsrc hne
    subst ht
    unfold rewriteAttrs
    rw [if_neg (by decide), if_pos rfl]
    unfold linkAttrs
    rw [hsrc]
    dsimp only
    rw [if_neg hne]
    exact getAttr_setAttr_self "href" (toAbsolute base u) a
  · intro ht hsrc hne
    subst ht
    unfold rewriteAttrs
    rw [if_neg (by decide), if_neg (by decide), if_pos rfl]
    unfold aAttrs
    rw [hsrc]
    dsimp only
    rw [if_neg hne]
    constructor
    · rw [getAttr_setAttr_ne "target" "href" "_blank" _ (by decide)]
      exact getAttr_setAttr_self "href" (toAbsolute base u) _
    · exact getAttr_setAttr_self "target" "_blank" _
  · intro hbase
    unfold toAbsolute resolveChars
    rw [hbase]

/-- C4, witness: the spec's own image scenario. -/
theorem c4_rewriter_resolves_witness :
    attrsAt? (rewriteUrls c4doc "https://example.com/post") [0]
        = some ("img", rewriteAttrs "https://example.com/post" "img" [("src", "/logo.png")]) ∧
    getAttr "src" (rewriteAttrs "https://example.com/post" "img" [("src", "/logo.png")])
        = some (toAbsolute "https://example.com/post" "/logo.png") ∧
    getAttr "srcset" (rewriteAttrs "https://example.com/post" "img" [("src", "/logo.png")])
        = none :=
  ⟨(c4_rewriter_resolves c4doc "https://example.com/post" "/logo.png" [0] "img"
      [("src", "/logo.png")] (by decide)).1,
   ((c4_rewriter_resolves c4doc "https://example.com/post" "/logo.png" [0] "img"
      [("src", "/logo.png")] (by decide)).2.1 rfl rfl (by decide)).1,
   ((c4_rewriter_resolves c4doc "https://example.com/post" "/logo.png" [0] "img"
      [("src", "/logo.png")] (by decide)).2.1 rfl rfl (by decide)).2⟩

theorem directLoadRun_chatHistory (env : FetchEnv) (s0 : DirectApp) :
    (directLoadRun env s0).chatHistory = s0.chatHistory := by
  unfold directLoadRun
  repeat' split
  all_goals rfl

theorem iframeLoadRun_keeps (env : FetchEnv) (t0 : IframeApp) :
    (iframeLoadRun env t0).chatHistory = t0.chatHistory ∧
    (iframeLoadRun env t0).dictionary = t0.dictionary := by
  unfold iframeLoadRun
  repeat' split
  all_goals exact ⟨rfl, rfl⟩

/-- C10: loading an article first clears everything derived from the
previous article — the whole outcome of a load (success or failure) is
independent of the previously shown analysis, chat history, article text,
rendered HTML and dictionary popup, the chat history is empty afterwards
(and the iframe dictionary closed) until re-populated by the new article. -/
theorem c10_load_clears_previous (env : FetchEnv) (s s' : DirectApp) (t t' : IframeApp)
    (hs : s.urlInput = s'.urlInput) (ht : t.urlInput = t'.urlInput)
    (hsne : s.urlInput ≠ "") (htne : t.urlInput ≠ "") :
    handleLoadArticleDirect env s = handleLoadArticleDirect env s' ∧
    (handleLoadArticleDirect env s).chatHistory = [] ∧
    handleLoadArticleIframe env t = handleLoadArticleIframe env t' ∧
    (handleLoadArticleIframe env t).chatHistory = [] ∧
    (handleLoadArticleIframe env t).dictionary = none := by
  have hrs : loadResetDirect s = loadResetDirect s' := by
    cases s with
    | mk ls u ac an ch =>
        cases s' with
        | mk ls' u' ac' an' ch' =>
            dsimp only at hs
            subst hs
            rfl
  have hrt : loadResetIframe t = loadResetIframe t' := by
    cases t with
    | mk ls u at1 ih an ch dc =>
        cases t' with
        | mk ls' u' at1' ih' an' ch' dc' =>
            dsimp only at ht
            subst ht
            rfl
  refine ⟨?_, ?_, ?_, ?_, ?_⟩
  · unfold handleLoadArticleDirect
    rw [if_neg hsne, if_neg (by rw [← hs]; exact hsne), hrs]
  · unfold handleLoadArticleDirect
    rw [if_neg hsne]
    show (directLoadRun env (loadResetDirect s)).chatHistory = []
    rw [directLoadRun_chatHistory]
    rfl
  · unfold handleLoadArticleIframe
    rw [if_neg htne, if_neg (by rw [← ht]; exact htne), hrt]
  · unfold handleLoadArticleIframe
    rw [if_neg htne]
    show (iframeLoadRun env (loadResetIframe t)).chatHistory = []
    rw [(iframeLoadRun_keeps env (loadResetIframe t)).1]
    rfl
  · unfold handleLoadArticleIframe
    rw [if_neg htne]
    show (iframeLoadRun env (loadResetIframe t)).dictionary = none
    rw [(iframeLoadRun_keeps env (loadResetIframe t)).2]
    rfl

/-- A failing fetch environment for the C10 witness. -/
def c10env : FetchEnv :=
  ⟨Except.error "net down", fun _ => NodeList.nil, fun _ => Except.error "ai down"⟩

/-- C10, witness: loading from a state full of previous-article data equals
loading from a blank state. -/
theorem c10_load_clears_previous_witness :
    handleLoadArticleDirect c10env
        ⟨LoadingState.IDLE, "u", "old article", some ⟨"s", []⟩, [⟨"1", ChatRole.user, "m", 0⟩]⟩
      = handleLoadArticleDirect c10env ⟨LoadingState.IDLE, "u", "", none, []⟩ ∧
    (handleLoadArticleDirect c10env
        ⟨LoadingState.IDLE, "u", "old article", some ⟨"s", []⟩,
          [⟨"1", ChatRole.user, "m", 0⟩]⟩).chatHistory = [] ∧
    handleLoadArticleIframe c10env
        ⟨LoadingState.IDLE, "u", "old text", "old html", some ⟨"s", []⟩,
          [⟨"1", ChatRole.user, "m", 0⟩], some ⟨"w", "e", "c", "x"⟩⟩
      = handleLoadArticleIframe c10env ⟨LoadingState.IDLE, "u", "", "", none, [], none⟩ ∧
    (handleLoadArticleIframe c10env
        ⟨LoadingState.IDLE, "u", "old text", "old html", some ⟨"s", []⟩,
          [⟨"1", ChatRole.user, "m", 0⟩], some ⟨"w", "e", "c", "x"⟩⟩).chatHistory = [] ∧
    (handleLoadArticleIframe c10env
        ⟨LoadingState.IDLE, "u", "old text", "old html", some ⟨"s", []⟩,
          [⟨"1", ChatRole.user, "m", 0⟩], some ⟨"w", "e", "c", "x"⟩⟩).dictionary = none :=
  c10_load_clears_previous c10env
    ⟨LoadingState.IDLE, "u", "old article", some ⟨"s", []⟩, [⟨"1", ChatRole.user, "m", 0⟩]⟩
    ⟨LoadingState.IDLE, "u", "", none, []⟩
    ⟨LoadingState.IDLE, "u", "old text", "old html", some ⟨"s", []⟩,
      [⟨"1", ChatRole.user, "m", 0⟩], some ⟨"w", "e", "c", "x"⟩⟩
    ⟨LoadingState.IDLE, "u", "", "", none, [], none⟩
    rfl rfl (by decide) (by decide)
